import Mathlib

/-!
A shallow embedding of the distance-vector (RIP-style) routing simulation
from src/main.py.

Modelling choices, matching the source:
- Python dicts are insertion-ordered association lists: a write to an
  existing key updates it in place, a write to a fresh key appends it.
- Python numeric costs (non-negative numbers plus float inf, the only
  values the program ever stores) are extended naturals ℕ∞, with ⊤ for inf.
- Python string node names are String; Python None next hops are none.
- Methods that mutate objects become functions returning the new state.
-/

namespace RipSim

abbrev NodeId := String

abbrev Cost := ℕ∞

/-- Route entry (cost, nextHop): best known cost to one destination and the
neighbor it goes through (none models Python None). -/
abbrev RouteEntry := Cost × Option NodeId

/-- Read from an insertion-ordered association list (Python d.get(k) / d[k]). -/
def lookupA {α : Type} : List (NodeId × α) → NodeId → Option α
  | [], _ => none
  | (k', v) :: rest, k => if k' = k then some v else lookupA rest k

/-- Python dict write d[k] = v: overwrite in place when the key exists,
append at the end otherwise. -/
def setA {α : Type} : List (NodeId × α) → NodeId → α → List (NodeId × α)
  | [], k, v => [(k, v)]
  | (k', v') :: rest, k, v =>
      if k' = k then (k, v) :: rest else (k', v') :: setA rest k v

/-- Node of the network: src/main.py class Node (fields name, routingTable,
neighbors). -/
structure Node where
  name : NodeId
  routingTable : List (NodeId × RouteEntry)
  neighbors : List (NodeId × Cost)
  deriving DecidableEq

/-- Python Node.__init__: routing table seeded with the self entry
(0, name); no neighbors. -/
def Node.init (name : NodeId) : Node :=
  { name := name
    routingTable := [(name, ((0 : Cost), some name))]
    neighbors := [] }

/-- One execution of the body of the for-loop of Node.updateRoutingTable:
the accumulator is the evolving routingTable plus the updated flag, the item
is one (destination, entry) pair of the advertised neighbor table. -/
def updStep (selfName : NodeId) (linkCost : Cost) (neighborName : NodeId)
    (acc : List (NodeId × RouteEntry) × Bool) (item : NodeId × RouteEntry) :
    List (NodeId × RouteEntry) × Bool :=
  if item.1 = selfName then acc
  else
    let current_cost := ((lookupA acc.1 item.1).getD ((⊤ : Cost), none)).1
    let new_cost := linkCost + item.2.1
    if new_cost < current_cost then
      (setA acc.1 item.1 (new_cost, some neighborName), true)
    else acc

/-- Python Node.updateRoutingTable.  The link cost self.neighbors[neighborName]
is read by lookup; Python raises KeyError when the key is missing, here the
lookup defaults to ⊤ (all uses, in the iteration loop and in the claims, have
the key present). -/
def Node.updateRoutingTable (node : Node) (neighborName : NodeId)
    (neighborTable : List (NodeId × RouteEntry)) : Node × Bool :=
  let linkCost := (lookupA node.neighbors neighborName).getD (⊤ : Cost)
  let r := neighborTable.foldl (updStep node.name linkCost neighborName)
    (node.routingTable, false)
  ({ node with routingTable := r.1 }, r.2)

/-- Python Node.shareTable: returns the routing table. -/
def Node.shareTable (node : Node) : List (NodeId × RouteEntry) :=
  node.routingTable

/-- Python Node.disconnectNeighbor: when the neighbor is known, set its link
cost to inf and reset its table entry to (inf, None); otherwise do nothing. -/
def Node.disconnectNeighbor (node : Node) (neighborName : NodeId) : Node :=
  if (lookupA node.neighbors neighborName).isSome then
    { node with
        neighbors := setA node.neighbors neighborName (⊤ : Cost)
        routingTable := setA node.routingTable neighborName ((⊤ : Cost), none) }
  else node

/-- The network: src/main.py class Network (field nodes). -/
structure Network where
  nodes : List (NodeId × Node)
  deriving DecidableEq

/-- Python Network.__init__. -/
def Network.empty : Network := ⟨[]⟩

/-- Python Network.addNode: self.nodes[name] = Node(name), overwriting any
existing node of that name. -/
def Network.addNode (net : Network) (name : NodeId) : Network :=
  ⟨setA net.nodes name (Node.init name)⟩

/-- Apply f to the stored node at key k (no-op when absent); models in-place
mutation of self.nodes[k]. -/
def modifyNode (net : Network) (k : NodeId) (f : Node → Node) : Network :=
  match lookupA net.nodes k with
  | none => net
  | some n => ⟨setA net.nodes k (f n)⟩

/-- Python Network.connectNodes: when both ids exist, perform the four
sequential assignments of the source (neighbors of both, then the two seeded
routing-table entries); silently do nothing otherwise.  The four steps are
applied to the evolving state so the node1 = node2 aliasing of the source is
reproduced exactly. -/
def Network.connectNodes (net : Network) (node1 node2 : NodeId) (cost : Cost) :
    Network :=
  if (lookupA net.nodes node1).isSome && (lookupA net.nodes node2).isSome then
    let s1 := modifyNode net node1
      (fun n => { n with neighbors := setA n.neighbors node2 cost })
    let s2 := modifyNode s1 node2
      (fun n => { n with neighbors := setA n.neighbors node1 cost })
    let s3 := modifyNode s2 node1
      (fun n => { n with routingTable := setA n.routingTable node2 (cost, some node2) })
    modifyNode s3 node2
      (fun n => { n with routingTable := setA n.routingTable node1 (cost, some node1) })
  else net

/-- One neighbor exchange inside Network.simulateIteration: node nodeName
updates against neighborName's table as it currently stands (Python passes a
live reference to the neighbor's dict; reads within one updateRoutingTable
call see the table as of the call, which coincides with Python's behavior
because the call writes only keys it has already read).  The guard on
neighborName mirrors the source's `if neighborName in self.nodes`; the guard
on nodeName models the live alias to the node object and never fails, since
iteration only rewrites existing keys. -/
def exchangeStep (nodeName : NodeId) (acc : Network × Bool)
    (neighborName : NodeId) : Network × Bool :=
  match lookupA acc.1.nodes neighborName, lookupA acc.1.nodes nodeName with
  | some nbNode, some cur =>
    let r := cur.updateRoutingTable neighborName nbNode.shareTable
    (⟨setA acc.1.nodes nodeName r.1⟩, acc.2 || r.2)
  | _, _ => acc

/-- Python Network.simulateIteration: for every node (in insertion order),
for every of its neighbors (in insertion order), update the node's table
against the neighbor's current table; return whether anything changed. -/
def Network.simulateIteration (net : Network) : Network × Bool :=
  (net.nodes.map Prod.fst).foldl
    (fun acc nodeName =>
      match lookupA acc.1.nodes nodeName with
      | none => acc
      | some node =>
        node.neighbors.foldl (fun a2 nb => exchangeStep nodeName a2 nb.1) acc)
    (net, false)

/-- Python Network.simulateFailure.  The Bool records whether the
unknown-id branch was taken: in the source that branch prints an error
message and returns, leaving the network untouched. -/
def Network.simulateFailure (net : Network) (node1 node2 : NodeId) :
    Network × Bool :=
  if !(lookupA net.nodes node1).isSome || !(lookupA net.nodes node2).isSome then
    (net, true)
  else
    let s1 := modifyNode net node1 (fun n => n.disconnectNeighbor node2)
    (modifyNode s1 node2 (fun n => n.disconnectNeighbor node1), false)

/-- Modelled from the spec (reference implementation for claim C1): one
synchronous Jacobi-style round that snapshots all per-node tables before
applying any update — every neighbor table read comes from the pre-round
network net, while each node's own table evolves only through its own
updates. -/
def Network.simulateIterationJacobi (net : Network) : Network × Bool :=
  (net.nodes.map Prod.fst).foldl
    (fun acc nodeName =>
      match lookupA acc.1.nodes nodeName with
      | none => acc
      | some node =>
        node.neighbors.foldl
          (fun a2 nb =>
            match lookupA net.nodes nb.1, lookupA a2.1.nodes nodeName with
            | some nbNode, some cur =>
              let r := cur.updateRoutingTable nb.1 nbNode.shareTable
              (⟨setA a2.1.nodes nodeName r.1⟩, a2.2 || r.2)
            | _, _ => a2) acc)
    (net, false)

/-- Iterate k rounds of simulateIteration (round 1 applied first). -/
def iterNet : ℕ → Network → Network
  | 0, s => s
  | k + 1, s => iterNet k (s.simulateIteration).1

/-- The 3-node driver topology of src/main.py lines 160-169. -/
def driverNet : Network :=
  ((((Network.empty.addNode "A").addNode "B").addNode "C").connectNodes
    "A" "B" 1).connectNodes "B" "C" 1 |>.connectNodes "A" "C" 4

/-- Cost of an optional route entry, ⊤ when absent. -/
def entryCost (o : Option RouteEntry) : Cost := (o.getD ((⊤ : Cost), none)).1

/-- Cost recorded in a node's routing table for destination d (⊤ when the
entry is missing). -/
def Node.cost (node : Node) (d : NodeId) : Cost :=
  entryCost (lookupA node.routingTable d)

/-- Cost recorded in the network for source n and destination d (⊤ when the
node or the entry is missing). -/
def Network.cost (net : Network) (n d : NodeId) : Cost :=
  match lookupA net.nodes n with
  | none => ⊤
  | some node => node.cost d

/-- Route entry recorded in the network for source n and destination d. -/
def Network.entry (net : Network) (n d : NodeId) : Option RouteEntry :=
  match lookupA net.nodes n with
  | none => none
  | some node => lookupA node.routingTable d

/-- The state of the driver after the A-B failure is injected on the converged
network (src/main.py line 199). -/
def postFailureNet : Network :=
  ((iterNet 2 driverNet).simulateFailure "A" "B").1

/-- Node A of the freshly built driver network (used by concrete witnesses). -/
def driverNodeA : Node :=
  (lookupA driverNet.nodes "A").getD (Node.init "A")

/-- Node B of the freshly built driver network (used by concrete witnesses). -/
def driverNodeB : Node :=
  (lookupA driverNet.nodes "B").getD (Node.init "B")

/-- A freshly built 4-node chain A-B-C-D with unit link costs. -/
def chain4Net : Network :=
  (((((Network.empty.addNode "A").addNode "B").addNode "C").addNode
    "D").connectNodes "A" "B" 1).connectNodes "B" "C" 1
    |>.connectNodes "C" "D" 1

section AssocLemmas

variable {α : Type}

theorem lookupA_setA (l : List (NodeId × α)) (k : NodeId) (v : α) (k' : NodeId) :
    lookupA (setA l k v) k' = if k = k' then some v else lookupA l k' := by
  induction l with
  | nil => simp [setA, lookupA]
  | cons hd tl ih =>
    obtain ⟨k₀, v₀⟩ := hd
    by_cases h0 : k₀ = k
    · subst h0
      by_cases h1 : k₀ = k' <;> simp [setA, lookupA, h1]
    · by_cases h1 : k₀ = k'
      · subst h1
        have hkk : ¬ k = k₀ := fun h => h0 h.symm
        simp [setA, lookupA, h0, hkk]
      · simp [setA, lookupA, h0, h1, ih]

theorem setA_of_lookupA_eq (l : List (NodeId × α)) (k : NodeId) (v : α)
    (h : lookupA l k = some v) : setA l k v = l := by
  induction l with
  | nil => simp [lookupA] at h
  | cons hd tl ih =>
    obtain ⟨k₀, v₀⟩ := hd
    by_cases h0 : k₀ = k
    · subst h0
      simp [lookupA] at h
      simp [setA, h]
    · simp [lookupA, h0] at h
      simp [setA, h0, ih h]

theorem mem_of_lookupA {l : List (NodeId × α)} {k : NodeId} {v : α}
    (h : lookupA l k = some v) : (k, v) ∈ l := by
  induction l with
  | nil => simp [lookupA] at h
  | cons hd tl ih =>
    obtain ⟨k₀, v₀⟩ := hd
    by_cases h0 : k₀ = k
    · subst h0
      simp [lookupA] at h
      simp [h]
    · simp [lookupA, h0] at h
      exact List.mem_cons_of_mem _ (ih h)

theorem lookupA_eq_none_iff (l : List (NodeId × α)) (k : NodeId) :
    lookupA l k = none ↔ k ∉ l.map Prod.fst := by
  induction l with
  | nil => simp [lookupA]
  | cons hd tl ih =>
    obtain ⟨k₀, v₀⟩ := hd
    by_cases h0 : k₀ = k
    · subst h0
      simp [lookupA]
    · simp only [lookupA, if_neg h0, List.map_cons, List.mem_cons]
      rw [ih]
      constructor
      · rintro h (h1 | h1)
        · exact h0 h1.symm
        · exact h h1
      · intro h h1
        exact h (Or.inr h1)

theorem lookupA_isSome_iff (l : List (NodeId × α)) (k : NodeId) :
    (lookupA l k).isSome = true ↔ k ∈ l.map Prod.fst := by
  rcases h : lookupA l k with _ | v
  · simp [(lookupA_eq_none_iff l k).mp h]
  · simp only [Option.isSome_some, true_iff]
    exact List.mem_map.mpr ⟨(k, v), mem_of_lookupA h, rfl⟩

theorem keys_setA_of_mem (l : List (NodeId × α)) (k : NodeId) (v : α)
    (h : k ∈ l.map Prod.fst) :
    (setA l k v).map Prod.fst = l.map Prod.fst := by
  induction l with
  | nil => simp at h
  | cons hd tl ih =>
    obtain ⟨k₀, v₀⟩ := hd
    by_cases h0 : k₀ = k
    · subst h0
      simp [setA]
    · have hk : k ∈ tl.map Prod.fst := by
        rw [List.map_cons, List.mem_cons] at h
        rcases h with h1 | h1
        · exact absurd h1.symm h0
        · exact h1
      simp [setA, h0, ih hk]

theorem keys_setA_of_not_mem (l : List (NodeId × α)) (k : NodeId) (v : α)
    (h : k ∉ l.map Prod.fst) :
    (setA l k v).map Prod.fst = l.map Prod.fst ++ [k] := by
  induction l with
  | nil => simp [setA]
  | cons hd tl ih =>
    obtain ⟨k₀, v₀⟩ := hd
    have hne : ¬ k₀ = k := fun e => h (by simp [e])
    have htl : k ∉ tl.map Prod.fst := fun e => h (by simp [e])
    simp [setA, hne, ih htl]

theorem nodup_keys_setA (l : List (NodeId × α)) (k : NodeId) (v : α)
    (h : (l.map Prod.fst).Nodup) : ((setA l k v).map Prod.fst).Nodup := by
  by_cases hm : k ∈ l.map Prod.fst
  · rw [keys_setA_of_mem l k v hm]; exact h
  · rw [keys_setA_of_not_mem l k v hm]
    apply List.Nodup.append h (List.nodup_singleton k)
    intro a ha hk
    rw [List.mem_singleton] at hk
    exact hm (hk ▸ ha)

theorem lookupA_of_mem_nodup {l : List (NodeId × α)} {k : NodeId} {v : α}
    (hn : (l.map Prod.fst).Nodup) (h : (k, v) ∈ l) : lookupA l k = some v := by
  induction l with
  | nil => simp at h
  | cons hd tl ih =>
    obtain ⟨k₀, v₀⟩ := hd
    rw [List.map_cons] at hn
    have hn' := List.nodup_cons.mp hn
    rcases List.mem_cons.mp h with h1 | h1
    · cases h1
      simp [lookupA]
    · have hne : k₀ ≠ k := by
        rintro rfl
        exact hn'.1 (List.mem_map.mpr ⟨(k₀, v), h1, rfl⟩)
      simp [lookupA, hne, ih hn'.2 h1]

end AssocLemmas

theorem lookupA_modifyNode (net : Network) (k : NodeId) (f : Node → Node)
    (k' : NodeId) :
    lookupA (modifyNode net k f).nodes k' =
      if k = k' then (lookupA net.nodes k).map f else lookupA net.nodes k' := by
  unfold modifyNode
  rcases h : lookupA net.nodes k with _ | n
  · by_cases hk : k = k'
    · subst hk
      simp [h]
    · simp [hk, h]
  · simp [lookupA_setA, h]

/-- Claim C10: on existing ids, connectNodes unconditionally installs the
direct entry in both routing tables — node a's entry for b becomes
(cost, some b) and node b's entry for a becomes (cost, some a), whatever was
recorded before; with a = b this overwrites the self entry with (cost, a). -/
theorem connectNodes_overwrites_direct_entry (net : Network) (a b : NodeId)
    (c : Cost) (h1 : (lookupA net.nodes a).isSome = true)
    (h2 : (lookupA net.nodes b).isSome = true) :
    (net.connectNodes a b c).entry a b = some (c, some b) ∧
    (net.connectNodes a b c).entry b a = some (c, some a) := by
  obtain ⟨na, ha⟩ := Option.isSome_iff_exists.mp h1
  obtain ⟨nb, hb⟩ := Option.isSome_iff_exists.mp h2
  unfold Network.connectNodes
  rw [ha, hb]
  simp only [Option.isSome_some, Bool.and_self, if_pos]
  by_cases hab : a = b
  · subst hab
    simp [Network.entry, lookupA_modifyNode, ha, lookupA_setA]
  · constructor
    · simp [Network.entry, lookupA_modifyNode, hab, Ne.symm hab, ha, hb,
        lookupA_setA]
    · simp [Network.entry, lookupA_modifyNode, hab, Ne.symm hab, ha, hb,
        lookupA_setA]

/-- Claim C10 witness: reconnecting A-C at cost 4 on the converged driver
network overwrites A's recorded cheaper route to C (cost 2 via B) with the
direct entry (4, C); a self-connect on a fresh single-node network overwrites
the self entry (0, A) with (5, A). -/
theorem connectNodes_overwrites_direct_entry_witness :
    (((iterNet 2 driverNet).connectNodes "A" "C" 4).entry "A" "C"
        = some ((4 : Cost), some "C") ∧
      (iterNet 2 driverNet).entry "A" "C" = some ((2 : Cost), some "B")) ∧
    ((Network.empty.addNode "A").connectNodes "A" "A" 5).entry "A" "A"
        = some ((5 : Cost), some "A") := by
  refine ⟨⟨?_, by decide⟩, ?_⟩
  · exact (connectNodes_overwrites_direct_entry (iterNet 2 driverNet) "A" "C" 4
      (by decide) (by decide)).1
  · exact (connectNodes_overwrites_direct_entry (Network.empty.addNode "A")
      "A" "A" 5 (by decide) (by decide)).1

/-- Claim C7 amended: disconnectNeighbor on a neighborId actually present in
the neighbor-cost map sets its link cost to ⊤, resets its routing-table entry
to (⊤, none), and changes nothing else (all other neighbor costs, all
routing-table entries for other destinations, and the node name are
untouched). -/
theorem disconnectNeighbor_spec (node : Node) (nbId : NodeId) (c : Cost)
    (h : lookupA node.neighbors nbId = some c) :
    lookupA (node.disconnectNeighbor nbId).neighbors nbId = some (⊤ : Cost) ∧
    (∀ m, m ≠ nbId →
      lookupA (node.disconnectNeighbor nbId).neighbors m =
        lookupA node.neighbors m) ∧
    lookupA (node.disconnectNeighbor nbId).routingTable nbId =
      some ((⊤ : Cost), none) ∧
    (∀ d, d ≠ nbId →
      lookupA (node.disconnectNeighbor nbId).routingTable d =
        lookupA node.routingTable d) ∧
    (node.disconnectNeighbor nbId).name = node.name := by
  unfold Node.disconnectNeighbor
  rw [h]
  refine ⟨?_, ?_, ?_, ?_, rfl⟩
  · simp [lookupA_setA]
  · intro m hm
    simp [lookupA_setA, Ne.symm hm]
  · simp [lookupA_setA]
  · intro d hd
    simp [lookupA_setA, Ne.symm hd]

/-- Claim C7 witness: disconnecting B on the driver's node A poisons the B
link and the direct B entry while leaving the entry for C alone. -/
theorem disconnectNeighbor_spec_witness :
    lookupA (driverNodeA.disconnectNeighbor "B").neighbors "B"
        = some (⊤ : Cost) ∧
    lookupA (driverNodeA.disconnectNeighbor "B").routingTable "B"
        = some ((⊤ : Cost), none) ∧
    lookupA (driverNodeA.disconnectNeighbor "B").routingTable "C"
        = lookupA driverNodeA.routingTable "C" := by
  have h := disconnectNeighbor_spec driverNodeA "B" 1 (by decide)
  exact ⟨h.1, h.2.2.1, h.2.2.2.1 "C" (by decide)⟩

/-- Claim C7 counterexample: on a node with no neighbors, disconnectNeighbor
of an absent neighborId does not set its neighbor cost to ⊤ (the claim
quantifies over every neighborId); the call is a no-op. -/
theorem disconnectNeighbor_absent_counterex :
    lookupA ((Node.init "A").disconnectNeighbor "B").neighbors "B"
        ≠ some (⊤ : Cost) ∧
    (Node.init "A").disconnectNeighbor "B" = Node.init "A" := by
  exact ⟨by decide, by decide⟩

/-- Claim C6 counterexample: with only node A present, simulateFailure A B
takes the print-an-error-and-return branch (the Bool is the printed-message
flag of the embedding) and returns normally with the state unchanged — the
error is a silent print, not one surfaced to the caller. -/
theorem simulateFailure_unknown_prints_counterex :
    (Network.empty.addNode "A").simulateFailure "A" "B"
      = (Network.empty.addNode "A", true) := by
  decide

/-- Claim C6 amended: when both ids exist (and differ), simulateFailure
prints nothing, applies disconnectNeighbor symmetrically to the two stored
nodes, leaves every other node untouched, and performs no convergence
rounds itself. -/
theorem simulateFailure_known_ids (net : Network) (a b : NodeId)
    (h1 : (lookupA net.nodes a).isSome = true)
    (h2 : (lookupA net.nodes b).isSome = true) (hab : a ≠ b) :
    (net.simulateFailure a b).2 = false ∧
    lookupA (net.simulateFailure a b).1.nodes a
      = (lookupA net.nodes a).map (fun n => n.disconnectNeighbor b) ∧
    lookupA (net.simulateFailure a b).1.nodes b
      = (lookupA net.nodes b).map (fun n => n.disconnectNeighbor a) ∧
    ∀ k, k ≠ a → k ≠ b →
      lookupA (net.simulateFailure a b).1.nodes k = lookupA net.nodes k := by
  unfold Network.simulateFailure
  rw [h1, h2]
  simp only [Bool.not_true, Bool.or_self, Bool.false_or, if_false]
  refine ⟨rfl, ?_, ?_, ?_⟩
  · simp [lookupA_modifyNode, hab, Ne.symm hab]
  · simp [lookupA_modifyNode, hab, Ne.symm hab]
  · intro k hka hkb
    simp [lookupA_modifyNode, Ne.symm hka, Ne.symm hkb,
      fun h : a = k => hka h.symm, fun h : b = k => hkb h.symm]

/-- Claim C6 witness: injecting the A-B failure on the converged driver
network disconnects exactly those two nodes and reports no error. -/
theorem simulateFailure_known_ids_witness :
    ((iterNet 2 driverNet).simulateFailure "A" "B").2 = false ∧
    lookupA ((iterNet 2 driverNet).simulateFailure "A" "B").1.nodes "A"
      = (lookupA (iterNet 2 driverNet).nodes "A").map
          (fun n => n.disconnectNeighbor "B") ∧
    lookupA ((iterNet 2 driverNet).simulateFailure "A" "B").1.nodes "C"
      = lookupA (iterNet 2 driverNet).nodes "C" := by
  have h := simulateFailure_known_ids (iterNet 2 driverNet) "A" "B"
    (by decide) (by decide) (by decide)
  exact ⟨h.1, h.2.1, h.2.2.2 "C" (by decide) (by decide)⟩

/-- Claim C5 counterexample: on the driver topology, after the A-B failure
the run reaches its fixpoint at the second post-failure round, and in that
fixpoint A reaches B at cost 5 via C — not at cost 4 as claimed (the
surviving path A-C-B costs 4 + 1). -/
theorem driver_postFailure_counterex :
    ((iterNet 1 postFailureNet).simulateIteration).2 = false ∧
    (iterNet 1 postFailureNet).entry "A" "B" = some ((5 : Cost), some "C") ∧
    (iterNet 1 postFailureNet).entry "A" "B" ≠ some ((4 : Cost), some "C") := by
  exact ⟨by decide, by decide, by decide⟩

/-- Claim C5 amended: on the driver topology the pre-failure convergence
values are as claimed (A to B cost 1 via B, A to C cost 2 via B, B to C cost
1 via C, C to A cost 2 via B, converged at the second round); after
simulateFailure A B the iteration reaches a fixpoint at the second
post-failure round, well within the 100-round cap, in which A reaches B at
cost 5 via C. -/
theorem driver_scenario_fixpoint :
    ((iterNet 1 driverNet).simulateIteration).2 = false ∧
    (iterNet 2 driverNet).entry "A" "B" = some ((1 : Cost), some "B") ∧
    (iterNet 2 driverNet).entry "A" "C" = some ((2 : Cost), some "B") ∧
    (iterNet 2 driverNet).entry "B" "C" = some ((1 : Cost), some "C") ∧
    (iterNet 2 driverNet).entry "C" "A" = some ((2 : Cost), some "B") ∧
    ((iterNet 1 postFailureNet).simulateIteration).2 = false ∧
    (iterNet 1 postFailureNet).entry "A" "B" = some ((5 : Cost), some "C") := by
  exact ⟨by decide, by decide, by decide, by decide, by decide, by decide,
    by decide⟩

section UpdFold

variable (selfName : NodeId) (linkCost : Cost) (nbId : NodeId)

theorem updStep_lookup_preserved (acc : List (NodeId × RouteEntry) × Bool)
    (item : NodeId × RouteEntry) (d : NodeId)
    (h : item.1 = selfName ∨ item.1 ≠ d) :
    lookupA (updStep selfName linkCost nbId acc item).1 d = lookupA acc.1 d := by
  unfold updStep
  by_cases h1 : item.1 = selfName
  · simp [h1]
  · simp only [if_neg h1]
    have hne : item.1 ≠ d := h.resolve_left h1
    by_cases h2 : linkCost + item.2.1 <
        ((lookupA acc.1 item.1).getD ((⊤ : Cost), none)).1
    · simp only [if_pos h2, lookupA_setA, if_neg hne]
    · simp [h2]

theorem foldl_updStep_lookup_frozen (tbl : List (NodeId × RouteEntry))
    (rt0 : List (NodeId × RouteEntry)) (b0 : Bool) (d : NodeId)
    (hd : ∀ p ∈ tbl, p.1 = selfName ∨ p.1 ≠ d) :
    lookupA (tbl.foldl (updStep selfName linkCost nbId) (rt0, b0)).1 d
      = lookupA rt0 d := by
  induction tbl generalizing rt0 b0 with
  | nil => rfl
  | cons hd' tl ih =>
    rw [List.foldl_cons]
    have hstep := updStep_lookup_preserved selfName linkCost nbId (rt0, b0) hd' d
      (hd hd' (List.mem_cons_self hd' tl))
    rcases hacc : updStep selfName linkCost nbId (rt0, b0) hd' with ⟨rt1, b1⟩
    rw [hacc] at hstep
    rw [ih rt1 b1 (fun p hp => hd p (List.mem_cons_of_mem hd' hp)), hstep]

theorem updStep_snd_true (acc : List (NodeId × RouteEntry) × Bool)
    (item : NodeId × RouteEntry) (h : acc.2 = true) :
    (updStep selfName linkCost nbId acc item).2 = true := by
  unfold updStep
  by_cases h1 : item.1 = selfName
  · simp [h1, h]
  · simp only [if_neg h1]
    by_cases h2 : linkCost + item.2.1 <
        ((lookupA acc.1 item.1).getD ((⊤ : Cost), none)).1
    · simp [h2]
    · simp [h2, h]

theorem foldl_updStep_snd_true (tbl : List (NodeId × RouteEntry))
    (acc : List (NodeId × RouteEntry) × Bool) (h : acc.2 = true) :
    (tbl.foldl (updStep selfName linkCost nbId) acc).2 = true := by
  induction tbl generalizing acc with
  | nil => exact h
  | cons hd' tl ih =>
    rw [List.foldl_cons]
    exact ih _ (updStep_snd_true selfName linkCost nbId acc hd' h)

theorem updStep_false_eq (acc : List (NodeId × RouteEntry) × Bool)
    (item : NodeId × RouteEntry)
    (h : (updStep selfName linkCost nbId acc item).2 = false) :
    updStep selfName linkCost nbId acc item = acc := by
  unfold updStep at h ⊢
  by_cases h1 : item.1 = selfName
  · simp [h1]
  · simp only [if_neg h1] at h ⊢
    by_cases h2 : linkCost + item.2.1 <
        ((lookupA acc.1 item.1).getD ((⊤ : Cost), none)).1
    · simp [h2] at h
    · simp [h2]

theorem foldl_updStep_false (tbl : List (NodeId × RouteEntry))
    (acc : List (NodeId × RouteEntry) × Bool)
    (h : (tbl.foldl (updStep selfName linkCost nbId) acc).2 = false) :
    tbl.foldl (updStep selfName linkCost nbId) acc = acc := by
  induction tbl generalizing acc with
  | nil => rfl
  | cons hd' tl ih =>
    rw [List.foldl_cons] at h ⊢
    have h1 : (updStep selfName linkCost nbId acc hd').2 = false := by
      by_contra hb
      rw [Bool.not_eq_false] at hb
      rw [foldl_updStep_snd_true selfName linkCost nbId tl _ hb] at h
      exact Bool.true_eq_false ▸ h
    rw [ih _ h, updStep_false_eq selfName linkCost nbId acc hd' h1]

theorem foldl_updStep_lookup_hit (tbl : List (NodeId × RouteEntry))
    (hn : (tbl.map Prod.fst).Nodup) (rt0 : List (NodeId × RouteEntry))
    (b0 : Bool) (d : NodeId) (e : RouteEntry) (hd : lookupA tbl d = some e)
    (hself : d ≠ selfName) :
    lookupA (tbl.foldl (updStep selfName linkCost nbId) (rt0, b0)).1 d
      = if linkCost + e.1 < entryCost (lookupA rt0 d)
        then some (linkCost + e.1, some nbId) else lookupA rt0 d := by
  induction tbl generalizing rt0 b0 with
  | nil => simp [lookupA] at hd
  | cons item tl ih =>
    obtain ⟨k, e₀⟩ := item
    rw [List.map_cons] at hn
    have hn' := List.nodup_cons.mp hn
    by_cases hk : k = d
    · subst hk
      have he : e₀ = e := by
        simpa [lookupA] using hd
      subst he
      have hks : ¬ k = selfName := fun h => hself (h ▸ rfl)
      rw [List.foldl_cons]
      have hfro : ∀ p ∈ tl, p.1 = selfName ∨ p.1 ≠ k := by
        intro p hp
        right
        intro hpk
        exact hn'.1 (List.mem_map.mpr ⟨p, hp, hpk⟩)
      by_cases hlt : linkCost + e₀.1 < entryCost (lookupA rt0 k)
      · have hstep : updStep selfName linkCost nbId (rt0, b0) (k, e₀)
            = (setA rt0 k (linkCost + e₀.1, some nbId), true) := by
          unfold updStep
          simp only [if_neg hks]
          simp only [entryCost] at hlt
          simp [hlt]
        rw [hstep, foldl_updStep_lookup_frozen selfName linkCost nbId tl _ _ k hfro,
          lookupA_setA, if_pos rfl, if_pos hlt]
      · have hstep : updStep selfName linkCost nbId (rt0, b0) (k, e₀)
            = (rt0, b0) := by
          unfold updStep
          simp only [if_neg hks]
          simp only [entryCost] at hlt
          simp [hlt]
        rw [hstep, foldl_updStep_lookup_frozen selfName linkCost nbId tl _ _ k hfro,
          if_neg hlt]
    · have hd' : lookupA tl d = some e := by
        simpa [lookupA, hk] using hd
      rw [List.foldl_cons]
      have hstep := updStep_lookup_preserved selfName linkCost nbId (rt0, b0)
        (k, e₀) d (Or.inr hk)
      rcases hacc : updStep selfName linkCost nbId (rt0, b0) (k, e₀) with ⟨rt1, b1⟩
      rw [hacc] at hstep
      rw [ih hn'.2 rt1 b1 hd', hstep]

theorem foldl_updStep_flag_iff (tbl : List (NodeId × RouteEntry))
    (hn : (tbl.map Prod.fst).Nodup) (rt0 : List (NodeId × RouteEntry)) :
    (tbl.foldl (updStep selfName linkCost nbId) (rt0, false)).2 = true ↔
      ∃ d e, lookupA tbl d = some e ∧ d ≠ selfName ∧
        linkCost + e.1 < entryCost (lookupA rt0 d) := by
  induction tbl generalizing rt0 with
  | nil =>
    simp [lookupA]
  | cons item tl ih =>
    obtain ⟨k, e₀⟩ := item
    rw [List.map_cons] at hn
    have hn' := List.nodup_cons.mp hn
    rw [List.foldl_cons]
    by_cases hks : k = selfName
    · have hstep : updStep selfName linkCost nbId (rt0, false) (k, e₀)
          = (rt0, false) := by
        unfold updStep
        simp [hks]
      rw [hstep, ih hn'.2 rt0]
      constructor
      · rintro ⟨d, e, hde, hds, hlt⟩
        refine ⟨d, e, ?_, hds, hlt⟩
        have hkd : ¬ k = d := fun h => hds (hks ▸ h.symm ▸ rfl)
        simpa [lookupA, hkd] using hde
      · rintro ⟨d, e, hde, hds, hlt⟩
        have hkd : ¬ k = d := fun h => hds (hks ▸ h.symm ▸ rfl)
        exact ⟨d, e, by simpa [lookupA, hkd] using hde, hds, hlt⟩
    · by_cases hlt : linkCost + e₀.1 < entryCost (lookupA rt0 k)
      · have hstep : updStep selfName linkCost nbId (rt0, false) (k, e₀)
            = (setA rt0 k (linkCost + e₀.1, some nbId), true) := by
          unfold updStep
          simp only [if_neg hks]
          simp only [entryCost] at hlt
          simp [hlt]
        rw [hstep]
        rw [foldl_updStep_snd_true selfName linkCost nbId tl
          (setA rt0 k (linkCost + e₀.1, some nbId), true) rfl]
        simp only [true_iff]
        exact ⟨k, e₀, by simp [lookupA], hks, hlt⟩
      · have hstep : updStep selfName linkCost nbId (rt0, false) (k, e₀)
            = (rt0, false) := by
          unfold updStep
          simp only [if_neg hks]
          simp only [entryCost] at hlt
          simp [hlt]
        rw [hstep, ih hn'.2 rt0]
        constructor
        · rintro ⟨d, e, hde, hds, hlt'⟩
          have hkd : ¬ k = d := by
            intro h
            subst h
            rw [(lookupA_eq_none_iff tl k).mpr hn'.1] at hde
            exact Option.noConfusion hde
          exact ⟨d, e, by simpa [lookupA, hkd] using hde, hds, hlt'⟩
        · rintro ⟨d, e, hde, hds, hlt'⟩
          by_cases hkd : k = d
          · subst hkd
            have he : e₀ = e := by simpa [lookupA] using hde
            exact absurd (he ▸ hlt') hlt
          · exact ⟨d, e, by simpa [lookupA, hkd] using hde, hds, hlt'⟩

end UpdFold

/-- Cost recorded in a node's table never increases through one updStep. -/
theorem updStep_cost_le (selfName : NodeId) (linkCost : Cost) (nbId : NodeId)
    (acc : List (NodeId × RouteEntry) × Bool) (item : NodeId × RouteEntry)
    (d : NodeId) :
    entryCost (lookupA (updStep selfName linkCost nbId acc item).1 d)
      ≤ entryCost (lookupA acc.1 d) := by
  unfold updStep
  by_cases h1 : item.1 = selfName
  · simp [h1]
  · simp only [if_neg h1]
    by_cases h2 : linkCost + item.2.1 <
        ((lookupA acc.1 item.1).getD ((⊤ : Cost), none)).1
    · simp only [if_pos h2, lookupA_setA]
      by_cases hkd : item.1 = d
      · subst hkd
        simp only [if_pos rfl, entryCost, Option.getD_some]
        exact le_of_lt h2
      · simp [hkd]
    · simp [h2]

theorem foldl_updStep_cost_le (selfName : NodeId) (linkCost : Cost)
    (nbId : NodeId) (tbl : List (NodeId × RouteEntry))
    (acc : List (NodeId × RouteEntry) × Bool) (d : NodeId) :
    entryCost (lookupA (tbl.foldl (updStep selfName linkCost nbId) acc).1 d)
      ≤ entryCost (lookupA acc.1 d) := by
  induction tbl generalizing acc with
  | nil => exact le_refl _
  | cons item tl ih =>
    rw [List.foldl_cons]
    exact le_trans (ih _) (updStep_cost_le selfName linkCost nbId acc item d)

theorem updateRoutingTable_name (node : Node) (nbId : NodeId)
    (tbl : List (NodeId × RouteEntry)) :
    (node.updateRoutingTable nbId tbl).1.name = node.name := rfl

theorem updateRoutingTable_neighbors (node : Node) (nbId : NodeId)
    (tbl : List (NodeId × RouteEntry)) :
    (node.updateRoutingTable nbId tbl).1.neighbors = node.neighbors := rfl

theorem updateRoutingTable_false_eq (node : Node) (nbId : NodeId)
    (tbl : List (NodeId × RouteEntry))
    (h : (node.updateRoutingTable nbId tbl).2 = false) :
    (node.updateRoutingTable nbId tbl).1 = node := by
  have h' : (tbl.foldl (updStep node.name
      ((lookupA node.neighbors nbId).getD (⊤ : Cost)) nbId)
      (node.routingTable, false)).2 = false := h
  have h2 := foldl_updStep_false node.name
    ((lookupA node.neighbors nbId).getD (⊤ : Cost)) nbId tbl
    (node.routingTable, false) h'
  show { node with routingTable := (tbl.foldl (updStep node.name
      ((lookupA node.neighbors nbId).getD (⊤ : Cost)) nbId)
      (node.routingTable, false)).1 } = node
  rw [h2]

theorem updateRoutingTable_cost_le (node : Node) (nbId : NodeId)
    (tbl : List (NodeId × RouteEntry)) (d : NodeId) :
    (node.updateRoutingTable nbId tbl).1.cost d ≤ node.cost d := by
  unfold Node.updateRoutingTable Node.cost
  exact foldl_updStep_cost_le _ _ _ tbl _ d

theorem updateRoutingTable_lookup_self (node : Node) (nbId : NodeId)
    (tbl : List (NodeId × RouteEntry)) :
    lookupA (node.updateRoutingTable nbId tbl).1.routingTable node.name
      = lookupA node.routingTable node.name := by
  unfold Node.updateRoutingTable
  exact foldl_updStep_lookup_frozen _ _ _ tbl _ _ node.name
    (fun p _ => by by_cases h : p.1 = node.name <;> [exact Or.inl h; exact Or.inr h])

/-- Claim C3: with neighborId present in the neighbor-cost map at cost c and
an advertised table with unique keys, updateRoutingTable (1) rewrites each
destination d other than the node's own name carried by the advertised table
to (c + advertised cost, neighborId) exactly when that candidate is strictly
below the current cost (missing entries count as ⊤, ties never update),
(2) leaves the own-name entry and destinations not advertised unchanged,
(3) returns true iff some advertised destination strictly improves,
(4) when it returns true some routing-table entry actually changed,
(5) when it returns false the node is unchanged, and (6, 7) never touches
the name or the neighbor-cost map. -/
theorem updateRoutingTable_spec (node : Node) (neighborId : NodeId)
    (tbl : List (NodeId × RouteEntry)) (c : Cost)
    (hc : lookupA node.neighbors neighborId = some c)
    (hn : (tbl.map Prod.fst).Nodup) :
    (∀ d e, lookupA tbl d = some e → d ≠ node.name →
        lookupA (node.updateRoutingTable neighborId tbl).1.routingTable d =
          if c + e.1 < entryCost (lookupA node.routingTable d)
          then some (c + e.1, some neighborId)
          else lookupA node.routingTable d) ∧
    (∀ d, d = node.name ∨ lookupA tbl d = none →
        lookupA (node.updateRoutingTable neighborId tbl).1.routingTable d =
          lookupA node.routingTable d) ∧
    ((node.updateRoutingTable neighborId tbl).2 = true ↔
      ∃ d e, lookupA tbl d = some e ∧ d ≠ node.name ∧
        c + e.1 < entryCost (lookupA node.routingTable d)) ∧
    ((node.updateRoutingTable neighborId tbl).2 = true →
      ∃ d, lookupA (node.updateRoutingTable neighborId tbl).1.routingTable d ≠
        lookupA node.routingTable d) ∧
    ((node.updateRoutingTable neighborId tbl).2 = false →
      (node.updateRoutingTable neighborId tbl).1 = node) ∧
    (node.updateRoutingTable neighborId tbl).1.name = node.name ∧
    (node.updateRoutingTable neighborId tbl).1.neighbors = node.neighbors := by
  have hlc : (lookupA node.neighbors neighborId).getD (⊤ : Cost) = c := by
    rw [hc]
    rfl
  have key : node.updateRoutingTable neighborId tbl
      = ({ node with routingTable :=
            (tbl.foldl (updStep node.name c neighborId)
              (node.routingTable, false)).1 },
          (tbl.foldl (updStep node.name c neighborId)
            (node.routingTable, false)).2) := by
    unfold Node.updateRoutingTable
    rw [hlc]
  have hhit := fun d e hde hds =>
    foldl_updStep_lookup_hit node.name c neighborId tbl hn node.routingTable
      false d e hde hds
  have hflag := foldl_updStep_flag_iff node.name c neighborId tbl hn
    node.routingTable
  refine ⟨?_, ?_, ?_, ?_, ?_, ?_, ?_⟩
  · intro d e hde hds
    rw [key]
    exact hhit d e hde hds
  · intro d hd
    rw [key]
    apply foldl_updStep_lookup_frozen
    intro p hp
    rcases hd with hd | hd
    · subst hd
      by_cases h : p.1 = node.name
      · exact Or.inl h
      · exact Or.inr h
    · right
      intro hpd
      exact absurd (List.mem_map.mpr ⟨p, hp, hpd⟩)
        ((lookupA_eq_none_iff tbl d).mp hd)
  · rw [key]
    exact hflag
  · intro ht
    rw [key] at ht ⊢
    obtain ⟨d, e, hde, hds, hlt⟩ := hflag.mp ht
    refine ⟨d, ?_⟩
    rw [hhit d e hde hds, if_pos hlt]
    rcases hold : lookupA node.routingTable d with _ | e'
    · exact fun h => Option.noConfusion h
    · intro h
      have := Option.some.inj h
      rw [hold] at hlt
      simp only [entryCost, Option.getD_some] at hlt
      exact absurd (congrArg Prod.fst this) (ne_of_lt hlt)
  · intro hf
    rw [key] at hf ⊢
    have := foldl_updStep_false node.name c neighborId tbl
      (node.routingTable, false) hf
    rw [this]
  · rw [key]
  · rw [key]

/-- Claim C3 witness: node A of the driver network (link cost 1 to B)
processing B's advertised table picks up the route to C at cost 2 via B,
reports a change, and leaves name and neighbor costs alone. -/
theorem updateRoutingTable_spec_witness :
    lookupA (driverNodeA.updateRoutingTable "B"
        driverNodeB.routingTable).1.routingTable "C"
      = some ((2 : Cost), some "B") ∧
    (driverNodeA.updateRoutingTable "B" driverNodeB.routingTable).2 = true ∧
    lookupA (driverNodeA.updateRoutingTable "B"
        driverNodeB.routingTable).1.routingTable "A"
      = lookupA driverNodeA.routingTable "A" ∧
    (driverNodeA.updateRoutingTable "B" driverNodeB.routingTable).1.neighbors
      = driverNodeA.neighbors := by
  have h := updateRoutingTable_spec driverNodeA "B" driverNodeB.routingTable 1
    (by decide) (by decide)
  refine ⟨?_, ?_, ?_, h.2.2.2.2.2.2⟩
  · rw [h.1 "C" ((1 : Cost), some "C") (by decide) (by decide)]
    decide
  · exact h.2.2.1.mpr ⟨"C", ((1 : Cost), some "C"), by decide, by decide,
      by decide⟩
  · exact h.2.1 "A" (Or.inl (by decide))

/-- One neighbor exchange as a step over (node, neighbor) pairs. -/
def stepPair (acc : Network × Bool) (p : NodeId × NodeId) : Network × Bool :=
  exchangeStep p.1 acc p.2

/-- The Jacobi exchange as a step over pairs, reading the neighbor table from
the fixed snapshot. -/
def stepPairJac (snap : Network) (acc : Network × Bool) (p : NodeId × NodeId) :
    Network × Bool :=
  match lookupA snap.nodes p.2, lookupA acc.1.nodes p.1 with
  | some nbNode, some cur =>
    let r := cur.updateRoutingTable p.2 nbNode.shareTable
    (⟨setA acc.1.nodes p.1 r.1⟩, acc.2 || r.2)
  | _, _ => acc

/-- The (node, neighbor) pairs a round visits, in visiting order, computed
from the round-start state (valid because a round never changes any
neighbor list). -/
def nodePairs (net : Network) : List (NodeId × NodeId) :=
  (net.nodes.map Prod.fst).flatMap
    (fun nm => (((lookupA net.nodes nm).map Node.neighbors).getD []).map
      (fun nb => (nm, nb.1)))

/-- The body of the outer loop of simulateIteration. -/
def nodeSweep (acc : Network × Bool) (nodeName : NodeId) : Network × Bool :=
  match lookupA acc.1.nodes nodeName with
  | none => acc
  | some node => node.neighbors.foldl (fun a2 nb => exchangeStep nodeName a2 nb.1) acc

/-- The body of the outer loop of the Jacobi reference. -/
def nodeSweepJac (snap : Network) (acc : Network × Bool) (nodeName : NodeId) :
    Network × Bool :=
  match lookupA acc.1.nodes nodeName with
  | none => acc
  | some node =>
    node.neighbors.foldl (fun a2 nb => stepPairJac snap a2 (nodeName, nb.1)) acc

theorem simulateIteration_eq_sweep (net : Network) :
    net.simulateIteration = (net.nodes.map Prod.fst).foldl nodeSweep (net, false) :=
  rfl

theorem simulateIterationJacobi_eq_sweep (net : Network) :
    net.simulateIterationJacobi
      = (net.nodes.map Prod.fst).foldl (nodeSweepJac net) (net, false) :=
  rfl

theorem stepPair_frame (acc : Network × Bool) (p : NodeId × NodeId) :
    ((stepPair acc p).1.nodes.map Prod.fst = acc.1.nodes.map Prod.fst) ∧
    (∀ k, (lookupA (stepPair acc p).1.nodes k).map Node.name
        = (lookupA acc.1.nodes k).map Node.name) ∧
    (∀ k, (lookupA (stepPair acc p).1.nodes k).map Node.neighbors
        = (lookupA acc.1.nodes k).map Node.neighbors) := by
  unfold stepPair exchangeStep
  rcases h2 : lookupA acc.1.nodes p.2 with _ | nbNode
  · exact ⟨rfl, fun _ => rfl, fun _ => rfl⟩
  · rcases h1 : lookupA acc.1.nodes p.1 with _ | cur
    · exact ⟨rfl, fun _ => rfl, fun _ => rfl⟩
    · have hmem : p.1 ∈ acc.1.nodes.map Prod.fst :=
        (lookupA_isSome_iff _ _).mp (by rw [h1]; rfl)
      refine ⟨keys_setA_of_mem _ _ _ hmem, ?_, ?_⟩
      · intro k
        rw [lookupA_setA]
        by_cases hk : p.1 = k
        · subst hk
          rw [if_pos rfl, h1]
          rfl
        · rw [if_neg hk]
      · intro k
        rw [lookupA_setA]
        by_cases hk : p.1 = k
        · subst hk
          rw [if_pos rfl, h1]
          rfl
        · rw [if_neg hk]

theorem stepPairJac_frame (snap : Network) (acc : Network × Bool)
    (p : NodeId × NodeId) :
    ((stepPairJac snap acc p).1.nodes.map Prod.fst = acc.1.nodes.map Prod.fst) ∧
    (∀ k, (lookupA (stepPairJac snap acc p).1.nodes k).map Node.name
        = (lookupA acc.1.nodes k).map Node.name) ∧
    (∀ k, (lookupA (stepPairJac snap acc p).1.nodes k).map Node.neighbors
        = (lookupA acc.1.nodes k).map Node.neighbors) := by
  unfold stepPairJac
  rcases h2 : lookupA snap.nodes p.2 with _ | nbNode
  · exact ⟨rfl, fun _ => rfl, fun _ => rfl⟩
  · rcases h1 : lookupA acc.1.nodes p.1 with _ | cur
    · exact ⟨rfl, fun _ => rfl, fun _ => rfl⟩
    · have hmem : p.1 ∈ acc.1.nodes.map Prod.fst :=
        (lookupA_isSome_iff _ _).mp (by rw [h1]; rfl)
      refine ⟨keys_setA_of_mem _ _ _ hmem, ?_, ?_⟩
      · intro k
        rw [lookupA_setA]
        by_cases hk : p.1 = k
        · subst hk
          rw [if_pos rfl, h1]
          rfl
        · rw [if_neg hk]
      · intro k
        rw [lookupA_setA]
        by_cases hk : p.1 = k
        · subst hk
          rw [if_pos rfl, h1]
          rfl
        · rw [if_neg hk]

theorem nodeSweep_eq_pairs (acc : Network × Bool) (nm : NodeId) :
    nodeSweep acc nm
      = ((((lookupA acc.1.nodes nm).map Node.neighbors).getD []).map
          (fun nb => (nm, nb.1))).foldl stepPair acc := by
  unfold nodeSweep
  rcases h : lookupA acc.1.nodes nm with _ | node
  · rfl
  · simp only [Option.map_some', Option.getD_some, List.foldl_map]
    rfl

theorem nodeSweepJac_eq_pairs (snap : Network) (acc : Network × Bool)
    (nm : NodeId) :
    nodeSweepJac snap acc nm
      = ((((lookupA acc.1.nodes nm).map Node.neighbors).getD []).map
          (fun nb => (nm, nb.1))).foldl (stepPairJac snap) acc := by
  unfold nodeSweepJac
  rcases h : lookupA acc.1.nodes nm with _ | node
  · rfl
  · simp only [Option.map_some', Option.getD_some, List.foldl_map]

theorem foldl_stepPair_neighborsMap (pairs : List (NodeId × NodeId))
    (acc : Network × Bool) (k : NodeId) :
    (lookupA (pairs.foldl stepPair acc).1.nodes k).map Node.neighbors
      = (lookupA acc.1.nodes k).map Node.neighbors := by
  induction pairs generalizing acc with
  | nil => rfl
  | cons p rest ih =>
    rw [List.foldl_cons, ih, (stepPair_frame acc p).2.2 k]

theorem foldl_stepPairJac_neighborsMap (snap : Network)
    (pairs : List (NodeId × NodeId)) (acc : Network × Bool) (k : NodeId) :
    (lookupA (pairs.foldl (stepPairJac snap) acc).1.nodes k).map Node.neighbors
      = (lookupA acc.1.nodes k).map Node.neighbors := by
  induction pairs generalizing acc with
  | nil => rfl
  | cons p rest ih =>
    rw [List.foldl_cons, ih, (stepPairJac_frame snap acc p).2.2 k]

theorem sweep_foldl_eq_pairs (names : List NodeId) (net : Network)
    (acc : Network × Bool)
    (hsh : ∀ nm, (lookupA acc.1.nodes nm).map Node.neighbors
        = (lookupA net.nodes nm).map Node.neighbors) :
    names.foldl nodeSweep acc
      = (names.flatMap
          (fun nm => (((lookupA net.nodes nm).map Node.neighbors).getD []).map
            (fun nb => (nm, nb.1)))).foldl stepPair acc := by
  induction names generalizing acc with
  | nil => rfl
  | cons nm rest ih =>
    rw [List.foldl_cons, List.flatMap_cons, List.foldl_append,
      nodeSweep_eq_pairs, hsh nm]
    apply ih
    intro k
    rw [← hsh k]
    exact foldl_stepPair_neighborsMap _ acc k

theorem sweepJac_foldl_eq_pairs (names : List NodeId) (snap net : Network)
    (acc : Network × Bool)
    (hsh : ∀ nm, (lookupA acc.1.nodes nm).map Node.neighbors
        = (lookupA net.nodes nm).map Node.neighbors) :
    names.foldl (nodeSweepJac snap) acc
      = (names.flatMap
          (fun nm => (((lookupA net.nodes nm).map Node.neighbors).getD []).map
            (fun nb => (nm, nb.1)))).foldl (stepPairJac snap) acc := by
  induction names generalizing acc with
  | nil => rfl
  | cons nm rest ih =>
    rw [List.foldl_cons, List.flatMap_cons, List.foldl_append,
      nodeSweepJac_eq_pairs, hsh nm]
    apply ih
    intro k
    rw [← hsh k]
    exact foldl_stepPairJac_neighborsMap snap _ acc k

theorem simulateIteration_eq_pairs (net : Network) :
    net.simulateIteration = (nodePairs net).foldl stepPair (net, false) := by
  rw [simulateIteration_eq_sweep]
  exact sweep_foldl_eq_pairs (net.nodes.map Prod.fst) net (net, false)
    (fun _ => rfl)

theorem simulateIterationJacobi_eq_pairs (net : Network) :
    net.simulateIterationJacobi
      = (nodePairs net).foldl (stepPairJac net) (net, false) := by
  rw [simulateIterationJacobi_eq_sweep]
  exact sweepJac_foldl_eq_pairs (net.nodes.map Prod.fst) net net (net, false)
    (fun _ => rfl)

/-- No table change would result from the exchange of pair p evaluated on
state net. -/
def noChangeAt (net : Network) (p : NodeId × NodeId) : Prop :=
  ∀ nbNode cur, lookupA net.nodes p.2 = some nbNode →
    lookupA net.nodes p.1 = some cur →
    (cur.updateRoutingTable p.2 nbNode.routingTable).2 = false

theorem stepPair_snd_true (acc : Network × Bool) (p : NodeId × NodeId)
    (h : acc.2 = true) : (stepPair acc p).2 = true := by
  unfold stepPair exchangeStep
  rcases lookupA acc.1.nodes p.2 with _ | nbNode
  · exact h
  · rcases lookupA acc.1.nodes p.1 with _ | cur
    · exact h
    · simp [h]

theorem foldl_stepPair_snd_true (pairs : List (NodeId × NodeId))
    (acc : Network × Bool) (h : acc.2 = true) :
    (pairs.foldl stepPair acc).2 = true := by
  induction pairs generalizing acc with
  | nil => exact h
  | cons p rest ih => exact ih _ (stepPair_snd_true acc p h)

theorem stepPairJac_snd_true (snap : Network) (acc : Network × Bool)
    (p : NodeId × NodeId) (h : acc.2 = true) :
    (stepPairJac snap acc p).2 = true := by
  unfold stepPairJac
  rcases lookupA snap.nodes p.2 with _ | nbNode
  · exact h
  · rcases lookupA acc.1.nodes p.1 with _ | cur
    · exact h
    · simp [h]

theorem foldl_stepPairJac_snd_true (snap : Network)
    (pairs : List (NodeId × NodeId)) (acc : Network × Bool) (h : acc.2 = true) :
    (pairs.foldl (stepPairJac snap) acc).2 = true := by
  induction pairs generalizing acc with
  | nil => exact h
  | cons p rest ih => exact ih _ (stepPairJac_snd_true snap acc p h)

theorem stepPair_of_noChange (net : Network) (p : NodeId × NodeId)
    (h : noChangeAt net p) : stepPair (net, false) p = (net, false) := by
  unfold stepPair exchangeStep
  rcases h2 : lookupA net.nodes p.2 with _ | nbNode
  · rfl
  · rcases h1 : lookupA net.nodes p.1 with _ | cur
    · rfl
    · have hf := h nbNode cur h2 h1
      have heq := updateRoutingTable_false_eq cur p.2 nbNode.routingTable hf
      show (⟨setA net.nodes p.1
          (cur.updateRoutingTable p.2 nbNode.shareTable).1⟩,
          false || (cur.updateRoutingTable p.2 nbNode.shareTable).2)
        = (net, false)
      rw [Node.shareTable] at *
      rw [heq, setA_of_lookupA_eq _ _ _ h1, hf]
      rfl

theorem stepPair_false_noChange (net : Network) (p : NodeId × NodeId)
    (h : (stepPair (net, false) p).2 = false) :
    noChangeAt net p ∧ stepPair (net, false) p = (net, false) := by
  have hnc : noChangeAt net p := by
    intro nbNode cur h2 h1
    unfold stepPair exchangeStep at h
    rw [h2, h1] at h
    simpa using h
  exact ⟨hnc, stepPair_of_noChange net p hnc⟩

theorem stepPairJac_of_noChange (net : Network) (p : NodeId × NodeId)
    (h : noChangeAt net p) : stepPairJac net (net, false) p = (net, false) := by
  unfold stepPairJac
  rcases h2 : lookupA net.nodes p.2 with _ | nbNode
  · rfl
  · rcases h1 : lookupA net.nodes p.1 with _ | cur
    · rfl
    · have hf := h nbNode cur h2 h1
      have heq := updateRoutingTable_false_eq cur p.2 nbNode.routingTable hf
      show (⟨setA net.nodes p.1
          (cur.updateRoutingTable p.2 nbNode.shareTable).1⟩,
          false || (cur.updateRoutingTable p.2 nbNode.shareTable).2)
        = (net, false)
      rw [Node.shareTable] at *
      rw [heq, setA_of_lookupA_eq _ _ _ h1, hf]
      rfl

theorem stepPairJac_false_noChange (net : Network) (p : NodeId × NodeId)
    (h : (stepPairJac net (net, false) p).2 = false) :
    noChangeAt net p ∧ stepPairJac net (net, false) p = (net, false) := by
  have hnc : noChangeAt net p := by
    intro nbNode cur h2 h1
    unfold stepPairJac at h
    rw [h2, h1] at h
    simpa using h
  exact ⟨hnc, stepPairJac_of_noChange net p hnc⟩

theorem foldl_stepPair_false_iff (pairs : List (NodeId × NodeId))
    (net : Network) :
    (pairs.foldl stepPair (net, false)).2 = false ↔
      ∀ p ∈ pairs, noChangeAt net p := by
  induction pairs with
  | nil => simp
  | cons p rest ih =>
    rw [List.foldl_cons]
    constructor
    · intro h
      have h1 : (stepPair (net, false) p).2 = false := by
        by_contra hb
        rw [Bool.not_eq_false] at hb
        rw [foldl_stepPair_snd_true rest _ hb] at h
        exact Bool.true_eq_false ▸ h
      obtain ⟨hnc, heq⟩ := stepPair_false_noChange net p h1
      rw [heq] at h
      intro q hq
      rcases List.mem_cons.mp hq with hq | hq
      · exact hq ▸ hnc
      · exact ih.mp h q hq
    · intro h
      rw [stepPair_of_noChange net p (h p (List.mem_cons_self p rest))]
      exact ih.mpr (fun q hq => h q (List.mem_cons_of_mem p hq))

theorem foldl_stepPair_false_state (pairs : List (NodeId × NodeId))
    (net : Network) (h : (pairs.foldl stepPair (net, false)).2 = false) :
    pairs.foldl stepPair (net, false) = (net, false) := by
  induction pairs with
  | nil => rfl
  | cons p rest ih =>
    rw [List.foldl_cons] at h ⊢
    have h1 : (stepPair (net, false) p).2 = false := by
      by_contra hb
      rw [Bool.not_eq_false] at hb
      rw [foldl_stepPair_snd_true rest _ hb] at h
      exact Bool.true_eq_false ▸ h
    obtain ⟨_, heq⟩ := stepPair_false_noChange net p h1
    rw [heq] at h ⊢
    exact ih h

theorem foldl_stepPairJac_false_iff (pairs : List (NodeId × NodeId))
    (net : Network) :
    (pairs.foldl (stepPairJac net) (net, false)).2 = false ↔
      ∀ p ∈ pairs, noChangeAt net p := by
  induction pairs with
  | nil => simp
  | cons p rest ih =>
    rw [List.foldl_cons]
    constructor
    · intro h
      have h1 : (stepPairJac net (net, false) p).2 = false := by
        by_contra hb
        rw [Bool.not_eq_false] at hb
        rw [foldl_stepPairJac_snd_true net rest _ hb] at h
        exact Bool.true_eq_false ▸ h
      obtain ⟨hnc, heq⟩ := stepPairJac_false_noChange net p h1
      rw [heq] at h
      intro q hq
      rcases List.mem_cons.mp hq with hq | hq
      · exact hq ▸ hnc
      · exact ih.mp h q hq
    · intro h
      rw [stepPairJac_of_noChange net p (h p (List.mem_cons_self p rest))]
      exact ih.mpr (fun q hq => h q (List.mem_cons_of_mem p hq))

theorem foldl_stepPair_keys (pairs : List (NodeId × NodeId))
    (acc : Network × Bool) :
    (pairs.foldl stepPair acc).1.nodes.map Prod.fst
      = acc.1.nodes.map Prod.fst := by
  induction pairs generalizing acc with
  | nil => rfl
  | cons p rest ih =>
    rw [List.foldl_cons, ih, (stepPair_frame acc p).1]

theorem foldl_stepPair_nameMap (pairs : List (NodeId × NodeId))
    (acc : Network × Bool) (k : NodeId) :
    (lookupA (pairs.foldl stepPair acc).1.nodes k).map Node.name
      = (lookupA acc.1.nodes k).map Node.name := by
  induction pairs generalizing acc with
  | nil => rfl
  | cons p rest ih =>
    rw [List.foldl_cons, ih, (stepPair_frame acc p).2.1 k]

/-- One round never changes which nodes exist, their names, or their
neighbor-cost maps. -/
theorem simulateIteration_frame (net : Network) :
    ((net.simulateIteration).1.nodes.map Prod.fst = net.nodes.map Prod.fst) ∧
    (∀ k, (lookupA (net.simulateIteration).1.nodes k).map Node.name
        = (lookupA net.nodes k).map Node.name) ∧
    (∀ k, (lookupA (net.simulateIteration).1.nodes k).map Node.neighbors
        = (lookupA net.nodes k).map Node.neighbors) := by
  rw [simulateIteration_eq_pairs]
  exact ⟨foldl_stepPair_keys (nodePairs net) (net, false),
    fun k => foldl_stepPair_nameMap (nodePairs net) (net, false) k,
    fun k => foldl_stepPair_neighborsMap (nodePairs net) (net, false) k⟩

/-- A round that reports no change leaves the state untouched. -/
theorem simulateIteration_false_state (net : Network)
    (h : (net.simulateIteration).2 = false) :
    (net.simulateIteration).1 = net := by
  rw [simulateIteration_eq_pairs] at h ⊢
  rw [foldl_stepPair_false_state (nodePairs net) net h]

/-- Claim C9: when a call to simulateIteration returns false, every later
call (with no intervening mutation) returns false as well and every routing
table stays exactly as it was. -/
theorem simulateIteration_fixpoint (net : Network)
    (h : (net.simulateIteration).2 = false) :
    ∀ k, iterNet k net = net ∧ ((iterNet k net).simulateIteration).2 = false := by
  have hstate := simulateIteration_false_state net h
  intro k
  have hiter : iterNet k net = net := by
    induction k with
    | zero => rfl
    | succ k ih =>
      show iterNet k (net.simulateIteration).1 = net
      rw [hstate]
      exact ih
  exact ⟨hiter, by rw [hiter]; exact h⟩

/-- Claim C9 witness: a single-node network is already at a fixpoint; three
further rounds change nothing and keep reporting false. -/
theorem simulateIteration_fixpoint_witness :
    iterNet 3 (Network.empty.addNode "A") = Network.empty.addNode "A" ∧
    ((iterNet 3 (Network.empty.addNode "A")).simulateIteration).2 = false := by
  exact simulateIteration_fixpoint (Network.empty.addNode "A") (by decide) 3

/-- Claim C1 counterexample: on the 4-node chain A-B-C-D (all link costs 1,
freshly built), one call of the source's simulateIteration gives node D a
route to A at cost 3 learned through updates applied earlier in the same
round, while the Jacobi reference that snapshots all tables before any
update leaves D with no entry for A at all; the resulting networks differ. -/
theorem gaussSeidel_vs_jacobi_counterex :
    (chain4Net.simulateIteration).1.entry "D" "A" = some ((3 : Cost), some "C") ∧
    (chain4Net.simulateIterationJacobi).1.entry "D" "A" = none ∧
    (chain4Net.simulateIteration).1 ≠ (chain4Net.simulateIterationJacobi).1 := by
  exact ⟨by decide, by decide, by decide⟩

/-- Claim C1 amended: simulateIteration is a Gauss-Seidel sweep — each
exchange reads the neighbor's table as already updated earlier in the same
round, so the resulting tables can differ from the snapshotting (Jacobi)
reference; but the two agree on whether a round changes anything: the
source's round reports no change exactly when the snapshotting reference
does. -/
theorem simulateIteration_false_iff_jacobi (net : Network) :
    (net.simulateIteration).2 = false ↔
      (net.simulateIterationJacobi).2 = false := by
  rw [simulateIteration_eq_pairs, simulateIterationJacobi_eq_pairs,
    foldl_stepPair_false_iff, foldl_stepPairJac_false_iff]

theorem stepPair_cost_le (acc : Network × Bool) (p : NodeId × NodeId)
    (n d : NodeId) :
    Network.cost (stepPair acc p).1 n d ≤ Network.cost acc.1 n d := by
  unfold stepPair exchangeStep
  rcases h2 : lookupA acc.1.nodes p.2 with _ | nbNode
  · exact le_refl _
  · rcases h1 : lookupA acc.1.nodes p.1 with _ | cur
    · exact le_refl _
    · show Network.cost ⟨setA acc.1.nodes p.1
        (cur.updateRoutingTable p.2 nbNode.shareTable).1⟩ n d
        ≤ Network.cost acc.1 n d
      unfold Network.cost
      rw [lookupA_setA]
      by_cases hk : p.1 = n
      · subst hk
        rw [if_pos rfl, h1]
        exact updateRoutingTable_cost_le cur p.2 nbNode.shareTable d
      · rw [if_neg hk]

theorem foldl_stepPair_cost_le (pairs : List (NodeId × NodeId))
    (acc : Network × Bool) (n d : NodeId) :
    Network.cost (pairs.foldl stepPair acc).1 n d ≤ Network.cost acc.1 n d := by
  induction pairs generalizing acc with
  | nil => exact le_refl _
  | cons p rest ih =>
    rw [List.foldl_cons]
    exact le_trans (ih _) (stepPair_cost_le acc p n d)

/-- One round never increases any recorded cost. -/
theorem simulateIteration_cost_le (net : Network) (n d : NodeId) :
    Network.cost (net.simulateIteration).1 n d ≤ Network.cost net n d := by
  rw [simulateIteration_eq_pairs]
  exact foldl_stepPair_cost_le (nodePairs net) (net, false) n d

theorem iterNet_succ (k : ℕ) (s : Network) :
    iterNet (k + 1) s = ((iterNet k s).simulateIteration).1 := by
  induction k generalizing s with
  | zero => rfl
  | succ k ih =>
    show iterNet (k + 1) (s.simulateIteration).1
      = ((iterNet (k + 1) s).simulateIteration).1
    rw [ih]
    rfl

/-- Claim C8: across consecutive simulateIteration rounds (no failures or
topology changes in between), every recorded cost is non-increasing — for
every node n, destination d and round index k, the cost after round k+1 is
at most the cost after round k (missing entries count as ⊤). -/
theorem iterNet_cost_antitone (net : Network) (k : ℕ) (n d : NodeId) :
    Network.cost (iterNet (k + 1) net) n d
      ≤ Network.cost (iterNet k net) n d := by
  rw [iterNet_succ]
  exact simulateIteration_cost_le (iterNet k net) n d

/-- The mutating operations of the claim C2 state space. -/
inductive Op where
  | addNode (name : NodeId)
  | connectNodes (a b : NodeId) (cost : Cost)
  | simulateIteration
  | disconnectNeighbor (node nb : NodeId)
  | simulateFailure (a b : NodeId)

/-- Apply one operation to the network (results of Bool-returning calls are
discarded, as the driver does between mutations). -/
def applyOp (net : Network) : Op → Network
  | Op.addNode name => net.addNode name
  | Op.connectNodes a b c => net.connectNodes a b c
  | Op.simulateIteration => (net.simulateIteration).1
  | Op.disconnectNeighbor k nb => modifyNode net k (fun n => n.disconnectNeighbor nb)
  | Op.simulateFailure a b => (net.simulateFailure a b).1

/-- The operation is not a self-loop connect. -/
def Op.selfLoopFree : Op → Bool
  | Op.connectNodes a b _ => a != b
  | _ => true

/-- State reached from the empty network by a sequence of operations. -/
def runOps (ops : List Op) : Network := ops.foldl applyOp Network.empty

/-- Every stored node carries its key as name, is not its own neighbor, and
holds the pristine self entry. -/
def GoodNet (net : Network) : Prop :=
  ∀ k n, lookupA net.nodes k = some n →
    n.name = k ∧ lookupA n.neighbors k = none ∧
    lookupA n.routingTable k = some ((0 : Cost), some k)

theorem goodNet_modify (net : Network) (k : NodeId) (f : Node → Node)
    (hg : GoodNet net)
    (hf : ∀ n, lookupA net.nodes k = some n → n.name = k →
      lookupA n.neighbors k = none →
      lookupA n.routingTable k = some ((0 : Cost), some k) →
      (f n).name = k ∧ lookupA (f n).neighbors k = none ∧
        lookupA (f n).routingTable k = some ((0 : Cost), some k)) :
    GoodNet (modifyNode net k f) := by
  intro k' n' hl
  rw [lookupA_modifyNode] at hl
  by_cases hk : k = k'
  · subst hk
    rw [if_pos rfl] at hl
    rcases hnet : lookupA net.nodes k with _ | n
    · rw [hnet, Option.map_none'] at hl
      exact Option.noConfusion hl
    · rw [hnet, Option.map_some'] at hl
      have hn' : f n = n' := Option.some.inj hl
      obtain ⟨ha, hb, hc⟩ := hg k n hnet
      exact hn' ▸ hf n hnet ha hb hc
  · rw [if_neg hk] at hl
    exact hg k' n' hl

theorem stepPair_selfEntry (acc : Network × Bool) (p : NodeId × NodeId)
    (k : NodeId) :
    (lookupA (stepPair acc p).1.nodes k).map
        (fun n => (n.name, lookupA n.routingTable n.name))
      = (lookupA acc.1.nodes k).map
        (fun n => (n.name, lookupA n.routingTable n.name)) := by
  unfold stepPair exchangeStep
  rcases h2 : lookupA acc.1.nodes p.2 with _ | nbNode
  · rfl
  · rcases h1 : lookupA acc.1.nodes p.1 with _ | cur
    · rfl
    · show (lookupA (setA acc.1.nodes p.1
        (cur.updateRoutingTable p.2 nbNode.shareTable).1) k).map _ = _
      rw [lookupA_setA]
      by_cases hk : p.1 = k
      · subst hk
        rw [if_pos rfl, h1]
        simp only [Option.map_some']
        rw [updateRoutingTable_name]
        rw [updateRoutingTable_lookup_self]
      · rw [if_neg hk]

theorem foldl_stepPair_selfEntry (pairs : List (NodeId × NodeId))
    (acc : Network × Bool) (k : NodeId) :
    (lookupA (pairs.foldl stepPair acc).1.nodes k).map
        (fun n => (n.name, lookupA n.routingTable n.name))
      = (lookupA acc.1.nodes k).map
        (fun n => (n.name, lookupA n.routingTable n.name)) := by
  induction pairs generalizing acc with
  | nil => rfl
  | cons p rest ih =>
    rw [List.foldl_cons, ih, stepPair_selfEntry acc p k]

theorem simulateIteration_selfEntry (net : Network) (k : NodeId) :
    (lookupA (net.simulateIteration).1.nodes k).map
        (fun n => (n.name, lookupA n.routingTable n.name))
      = (lookupA net.nodes k).map
        (fun n => (n.name, lookupA n.routingTable n.name)) := by
  rw [simulateIteration_eq_pairs]
  exact foldl_stepPair_selfEntry (nodePairs net) (net, false) k

theorem goodNet_disconnect (n : Node) (nb : NodeId) (k : NodeId)
    (ha : n.name = k) (hb : lookupA n.neighbors k = none)
    (hc : lookupA n.routingTable k = some ((0 : Cost), some k)) :
    (n.disconnectNeighbor nb).name = k ∧
    lookupA (n.disconnectNeighbor nb).neighbors k = none ∧
    lookupA (n.disconnectNeighbor nb).routingTable k
      = some ((0 : Cost), some k) := by
  unfold Node.disconnectNeighbor
  by_cases hs : (lookupA n.neighbors nb).isSome = true
  · rw [if_pos hs]
    have hnbk : nb ≠ k := by
      rintro rfl
      rw [hb] at hs
      exact Bool.noConfusion hs
    refine ⟨ha, ?_, ?_⟩
    · rw [lookupA_setA, if_neg hnbk]
      exact hb
    · rw [lookupA_setA, if_neg hnbk]
      exact hc
  · rw [if_neg hs]
    exact ⟨ha, hb, hc⟩

theorem applyOp_good (net : Network) (op : Op) (hg : GoodNet net)
    (hok : op.selfLoopFree = true) : GoodNet (applyOp net op) := by
  cases op with
  | addNode name =>
    intro k n hl
    unfold applyOp Network.addNode at hl
    rw [lookupA_setA] at hl
    by_cases hk : name = k
    · subst hk
      rw [if_pos rfl] at hl
      have := Option.some.inj hl
      subst this
      exact ⟨rfl, rfl, by simp [Node.init, lookupA]⟩
    · rw [if_neg hk] at hl
      exact hg k n hl
  | connectNodes a b c =>
    have hab : a ≠ b := by
      have : (a != b) = true := hok
      exact bne_iff_ne.mp this
    show GoodNet (net.connectNodes a b c)
    unfold Network.connectNodes
    by_cases hguard : ((lookupA net.nodes a).isSome
        && (lookupA net.nodes b).isSome) = true
    · rw [if_pos hguard]
      apply goodNet_modify
      · apply goodNet_modify
        · apply goodNet_modify
          · apply goodNet_modify net a _ hg
            intro n _ ha hb hc
            refine ⟨ha, ?_, hc⟩
            rw [lookupA_setA, if_neg (Ne.symm hab)]
            exact hb
          · intro n _ ha hb hc
            refine ⟨ha, ?_, hc⟩
            rw [lookupA_setA, if_neg hab]
            exact hb
        · intro n _ ha hb hc
          refine ⟨ha, hb, ?_⟩
          rw [lookupA_setA, if_neg (Ne.symm hab)]
          exact hc
      · intro n _ ha hb hc
        refine ⟨ha, hb, ?_⟩
        rw [lookupA_setA, if_neg hab]
        exact hc
    · rw [if_neg hguard]
      exact hg
  | simulateIteration =>
    show GoodNet (net.simulateIteration).1
    intro k n' hl
    have hmap := simulateIteration_selfEntry net k
    rw [hl, Option.map_some'] at hmap
    rcases hnet : lookupA net.nodes k with _ | n
    · rw [hnet] at hmap
      exact Option.noConfusion hmap
    · rw [hnet, Option.map_some'] at hmap
      have hpair := Option.some.inj hmap
      obtain ⟨ha, _, hc⟩ := hg k n hnet
      have hname : n'.name = n.name := congrArg Prod.fst hpair
      have hself : lookupA n'.routingTable n'.name
          = lookupA n.routingTable n.name := congrArg Prod.snd hpair
      have hnb := (simulateIteration_frame net).2.2 k
      rw [hl, hnet, Option.map_some', Option.map_some'] at hnb
      refine ⟨hname.trans ha, ?_, ?_⟩
      · rw [Option.some.inj hnb, ← ha]
        exact ha ▸ (hg k n hnet).2.1
      · have hk' : n'.name = k := hname.trans ha
        rw [← hk', hself, hname, ha]
        exact hc
  | disconnectNeighbor k₀ nb =>
    apply goodNet_modify net k₀ _ hg
    intro n _ ha hb hc
    exact goodNet_disconnect n nb k₀ ha hb hc
  | simulateFailure a b =>
    show GoodNet (net.simulateFailure a b).1
    unfold Network.simulateFailure
    by_cases hguard : (!(lookupA net.nodes a).isSome
        || !(lookupA net.nodes b).isSome) = true
    · rw [if_pos hguard]
      exact hg
    · rw [if_neg hguard]
      show GoodNet (modifyNode (modifyNode net a _) b _)
      apply goodNet_modify
      · apply goodNet_modify net a _ hg
        intro n _ ha hb hc
        exact goodNet_disconnect n b a ha hb hc
      · intro n _ ha hb hc
        exact goodNet_disconnect n a b ha hb hc

theorem runOps_good (ops : List Op)
    (hok : ∀ op ∈ ops, op.selfLoopFree = true) : GoodNet (runOps ops) := by
  have base : GoodNet Network.empty := by
    intro k n hl
    exact Option.noConfusion hl
  suffices h : ∀ net, GoodNet net → GoodNet (ops.foldl applyOp net) by
    exact h Network.empty base
  induction ops with
  | nil => exact fun net hg => hg
  | cons op rest ih =>
    intro net hg
    rw [List.foldl_cons]
    exact ih (fun q hq => hok q (List.mem_cons_of_mem op hq)) _
      (applyOp_good net op hg (hok op (List.mem_cons_self op rest)))

/-- Claim C2 amended: for every state reachable from the empty network by
addNode, connectNodes, simulateIteration, disconnectNeighbor and
simulateFailure calls in which no connectNodes call joins a node to itself,
every stored node carries its key as its name and its routing table maps its
own id to (cost 0, nextHop its own id). -/
theorem selfRoute_invariant (ops : List Op)
    (hok : ∀ op ∈ ops, op.selfLoopFree = true) :
    ∀ k n, lookupA (runOps ops).nodes k = some n →
      n.name = k ∧ lookupA n.routingTable k = some ((0 : Cost), some k) := by
  intro k n hl
  obtain ⟨ha, _, hc⟩ := runOps_good ops hok k n hl
  exact ⟨ha, hc⟩

/-- The operation list exercised by the claim C2 witness. -/
def demoOps : List Op :=
  [Op.addNode "A", Op.addNode "B", Op.connectNodes "A" "B" 1,
    Op.simulateIteration, Op.simulateFailure "A" "B",
    Op.disconnectNeighbor "A" "B"]

/-- Claim C2 witness: after adding A and B, connecting them, one iteration,
a failure and a direct disconnect, both self entries still read (0, self). -/
theorem selfRoute_invariant_witness :
    (runOps demoOps).entry "A" "A" = some ((0 : Cost), some "A") ∧
    (runOps demoOps).entry "B" "B" = some ((0 : Cost), some "B") := by
  have h := selfRoute_invariant demoOps (by decide)
  constructor
  · rcases hl : lookupA (runOps demoOps).nodes "A" with _ | n
    · exact absurd hl (by decide)
    · unfold Network.entry
      rw [hl]
      exact (h "A" n hl).2
  · rcases hl : lookupA (runOps demoOps).nodes "B" with _ | n
    · exact absurd hl (by decide)
    · unfold Network.entry
      rw [hl]
      exact (h "B" n hl).2

/-- Cost of a walk (list of successively visited nodes) under adjacency adj:
⊤ for the empty list, 0 for a single vertex, otherwise the sum of the edge
costs. -/
def walkCost (adj : NodeId → NodeId → Cost) : List NodeId → Cost
  | [] => ⊤
  | [_] => 0
  | a :: b :: rest => adj a b + walkCost adj (b :: rest)

/-- w is a walk from a to b. -/
def IsWalk (a b : NodeId) (w : List NodeId) : Prop :=
  w.head? = some a ∧ w.getLast? = some b

/-- The set of costs of walks from a to b. -/
def WalkCosts (adj : NodeId → NodeId → Cost) (a b : NodeId) : Set Cost :=
  { c | ∃ w, IsWalk a b w ∧ walkCost adj w = c }

/-- Modelled from the spec (claim C4's reference quantity): the true
shortest-path distance from a to b, the infimum of the costs of all walks. -/
noncomputable def spDist (adj : NodeId → NodeId → Cost) (a b : NodeId) : Cost :=
  sInf (WalkCosts adj a b)

/-- Minimum of a list of costs (⊤ for the empty list). -/
def minList (l : List Cost) : Cost := l.foldr min ⊤

/-- The Bellman iterate: bell k n d is the least cost of a walk from n to d
using at most k+1 edges, computed by the standard recurrence over the node
list ids. -/
def bell (adj : NodeId → NodeId → Cost) (ids : List NodeId) :
    ℕ → NodeId → NodeId → Cost
  | 0, n, d => if n = d then 0 else adj n d
  | k + 1, n, d =>
    min (bell adj ids k n d)
      (minList (ids.map (fun m => adj n m + bell adj ids k m d)))

section GraphLemmas

variable (adj : NodeId → NodeId → Cost) (ids : List NodeId)

theorem walkCosts_nonempty (a b : NodeId) : (WalkCosts adj a b).Nonempty :=
  ⟨walkCost adj [a, b], [a, b], ⟨rfl, rfl⟩, rfl⟩

theorem spDist_mem (a b : NodeId) :
    ∃ w, IsWalk a b w ∧ walkCost adj w = spDist adj a b :=
  csInf_mem (walkCosts_nonempty adj a b)

theorem spDist_le_walkCost (a b : NodeId) (w : List NodeId) (hw : IsWalk a b w) :
    spDist adj a b ≤ walkCost adj w :=
  sInf_le ⟨w, hw, rfl⟩

theorem spDist_self_le_zero (a : NodeId) : spDist adj a a ≤ 0 :=
  spDist_le_walkCost adj a a [a] ⟨rfl, rfl⟩

theorem spDist_le_adj (a b : NodeId) : spDist adj a b ≤ adj a b := by
  have h := spDist_le_walkCost adj a b [a, b] ⟨rfl, rfl⟩
  rw [walkCost, walkCost, add_zero] at h
  exact h

theorem spDist_triangle (n m d : NodeId) :
    spDist adj n d ≤ adj n m + spDist adj m d := by
  obtain ⟨w, ⟨hh, hl⟩, hc⟩ := spDist_mem adj m d
  cases w with
  | nil => exact Option.noConfusion hh
  | cons x w' =>
    have hx : x = m := Option.some.inj hh
    have hw : IsWalk n d (n :: x :: w') :=
      ⟨rfl, by rw [List.getLast?_cons_cons]; exact hl⟩
    have h := spDist_le_walkCost adj n d (n :: x :: w') hw
    rw [walkCost, hc, hx] at h
    exact h

theorem le_minList (l : List Cost) (a : Cost) (h : ∀ x ∈ l, a ≤ x) :
    a ≤ minList l := by
  induction l with
  | nil => exact le_top
  | cons x xs ih =>
    exact le_min (h x (List.mem_cons_self x xs))
      (ih fun y hy => h y (List.mem_cons_of_mem x hy))

theorem minList_le (l : List Cost) (x : Cost) (h : x ∈ l) : minList l ≤ x := by
  induction l with
  | nil => simp at h
  | cons y ys ih =>
    rcases List.mem_cons.mp h with h1 | h1
    · exact h1 ▸ min_le_left y (minList ys)
    · exact le_trans (min_le_right y (minList ys)) (ih h1)

theorem bell_self_le_zero (k : ℕ) (n : NodeId) : bell adj ids k n n ≤ 0 := by
  induction k with
  | zero => rw [bell, if_pos rfl]
  | succ k ih => exact le_trans (min_le_left _ _) ih

theorem spDist_le_bell (k : ℕ) (n d : NodeId) :
    spDist adj n d ≤ bell adj ids k n d := by
  induction k generalizing n d with
  | zero =>
    rw [bell]
    by_cases h : n = d
    · rw [if_pos h, h]
      exact spDist_self_le_zero adj d
    · rw [if_neg h]
      exact spDist_le_adj adj n d
  | succ k ih =>
    rw [bell]
    apply le_min (ih n d)
    apply le_minList
    intro x hx
    obtain ⟨m, _, rfl⟩ := List.mem_map.mp hx
    exact le_trans (spDist_triangle adj n m d) (add_le_add_left (ih m d) _)

theorem bell_le_walkCost
    (hend : ∀ x y, adj x y ≠ ⊤ → x ∈ ids ∧ y ∈ ids) :
    ∀ (k : ℕ) (w : List NodeId) (n d : NodeId), IsWalk n d w →
      w.length ≤ k + 2 → bell adj ids k n d ≤ walkCost adj w := by
  intro k
  induction k with
  | zero =>
    intro w n d hw hlen
    obtain ⟨hh, hl⟩ := hw
    match w with
    | [] => exact Option.noConfusion hh
    | [x] =>
      have hn : n = x := (Option.some.inj hh).symm
      have hd : d = x := (Option.some.inj hl).symm
      subst hn
      subst hd
      rw [walkCost, bell, if_pos rfl]
    | [x, y] =>
      have hn : n = x := (Option.some.inj hh).symm
      have hd : d = y := (Option.some.inj hl).symm
      subst hn
      subst hd
      rw [walkCost, walkCost, add_zero, bell]
      by_cases h : n = d
      · rw [if_pos h]
        exact zero_le _
      · rw [if_neg h]
    | x :: y :: z :: rest => simp at hlen
  | succ k ih =>
    intro w n d hw hlen
    obtain ⟨hh, hl⟩ := hw
    match w with
    | [] => exact Option.noConfusion hh
    | [x] =>
      have hn : n = x := (Option.some.inj hh).symm
      have hd : d = x := (Option.some.inj hl).symm
      subst hn
      subst hd
      rw [walkCost]
      exact bell_self_le_zero adj ids (k + 1) _
    | x :: y :: rest =>
      have hn : n = x := (Option.some.inj hh).symm
      subst hn
      rw [walkCost]
      by_cases htop : adj n y = ⊤
      · rw [htop, top_add]
        exact le_top
      · have hy : y ∈ ids := (hend n y htop).2
        have htail : IsWalk y d (y :: rest) :=
          ⟨rfl, by rw [List.getLast?_cons_cons] at hl; exact hl⟩
        have hlen' : (y :: rest).length ≤ k + 2 := by
          simp only [List.length_cons] at hlen ⊢
          omega
        have hb := ih (y :: rest) y d htail hlen'
        rw [bell]
        refine le_trans (min_le_right _ _) ?_
        refine le_trans (minList_le _ (adj n y + bell adj ids k y d)
          (List.mem_map.mpr ⟨y, hy, rfl⟩)) ?_
        exact add_le_add_left hb _

theorem walkCost_append_cons (u : List NodeId) (x : NodeId) (v : List NodeId) :
    walkCost adj (u ++ x :: v) = walkCost adj (u ++ [x]) + walkCost adj (x :: v) := by
  induction u with
  | nil =>
    show walkCost adj (x :: v) = walkCost adj [x] + walkCost adj (x :: v)
    rw [show walkCost adj [x] = (0 : Cost) from rfl, zero_add]
  | cons a u' ih =>
    match u' with
    | [] =>
      show adj a x + walkCost adj (x :: v)
        = (adj a x + walkCost adj [x]) + walkCost adj (x :: v)
      rw [show walkCost adj [x] = (0 : Cost) from rfl, add_zero]
    | b :: u'' =>
      show adj a b + walkCost adj ((b :: u'') ++ x :: v)
        = (adj a b + walkCost adj ((b :: u'') ++ [x])) + walkCost adj (x :: v)
      rw [ih, add_assoc]

theorem not_nodup_decomp {α : Type} (l : List α) (h : ¬ l.Nodup) :
    ∃ l1 a l2 l3, l = l1 ++ a :: (l2 ++ a :: l3) := by
  induction l with
  | nil => exact absurd List.nodup_nil h
  | cons x xs ih =>
    by_cases hx : x ∈ xs
    · obtain ⟨s, t, rfl⟩ := List.append_of_mem hx
      exact ⟨[], x, s, t, rfl⟩
    · have hxs : ¬ xs.Nodup := by
        intro hn
        exact h (List.nodup_cons.mpr ⟨hx, hn⟩)
      obtain ⟨l1, a, l2, l3, rfl⟩ := ih hxs
      exact ⟨x :: l1, a, l2, l3, rfl⟩

theorem walk_mem_of_ne_top
    (hend : ∀ x y, adj x y ≠ ⊤ → x ∈ ids ∧ y ∈ ids) :
    ∀ (w : List NodeId), 2 ≤ w.length → walkCost adj w ≠ ⊤ →
      ∀ v ∈ w, v ∈ ids := by
  intro w
  induction w with
  | nil => intro h; simp at h
  | cons x w' ih =>
    intro hlen htop v hv
    match w', hv with
    | [], _ => simp at hlen
    | y :: rest, hv =>
      have hxy : adj x y ≠ ⊤ := by
        intro he
        rw [walkCost, he, top_add] at htop
        exact htop rfl
      rcases List.mem_cons.mp hv with rfl | hv'
      · exact (hend v y hxy).1
      · match rest, hv' with
        | [], hv' =>
          rw [List.mem_singleton] at hv'
          exact hv' ▸ (hend x y hxy).2
        | z :: rest', hv' =>
          have htail : walkCost adj (y :: z :: rest') ≠ ⊤ := by
            intro he
            rw [walkCost, he, add_top] at htop
            exact htop rfl
          exact ih (by simp) htail v hv'

theorem walk_shorten
    (hend : ∀ x y, adj x y ≠ ⊤ → x ∈ ids ∧ y ∈ ids)
    (hN : 2 ≤ ids.length) :
    ∀ (L : ℕ) (w : List NodeId) (n d : NodeId), w.length ≤ L → IsWalk n d w →
      ∃ w', IsWalk n d w' ∧ w'.length ≤ ids.length ∧
        walkCost adj w' ≤ walkCost adj w := by
  intro L
  induction L with
  | zero =>
    intro w n d hlen hw
    rw [Nat.le_zero, List.length_eq_zero] at hlen
    subst hlen
    exact absurd hw.1 (Option.noConfusion)
  | succ L ih =>
    intro w n d hlen hw
    by_cases hshort : w.length ≤ ids.length
    · exact ⟨w, hw, hshort, le_refl _⟩
    · by_cases htop : walkCost adj w = ⊤
      · refine ⟨[n, d], ⟨rfl, rfl⟩, by simpa using hN, ?_⟩
        rw [htop]
        exact le_top
      · have hsub : ∀ v ∈ w, v ∈ ids := by
          apply walk_mem_of_ne_top adj ids hend w ?_ htop
          omega
        have hnd : ¬ w.Nodup := by
          intro hn
          exact hshort ((hn.subperm hsub).length_le)
        obtain ⟨w1, x, w2, w3, rfl⟩ := not_nodup_decomp _ hnd
        set w' := w1 ++ x :: w3 with hw'
        have hhead : (w1 ++ x :: w3).head? = (w1 ++ x :: (w2 ++ x :: w3)).head? := by
          cases w1 <;> rfl
        have hlast : (w1 ++ x :: w3).getLast? = (w1 ++ x :: (w2 ++ x :: w3)).getLast? := by
          rw [List.getLast?_append_of_ne_nil _ (List.cons_ne_nil x w3),
            List.getLast?_append_of_ne_nil _
              (List.cons_ne_nil x (w2 ++ x :: w3))]
          show (x :: w3).getLast? = ((x :: w2) ++ x :: w3).getLast?
          rw [List.getLast?_append_of_ne_nil _ (List.cons_ne_nil x w3)]
        have hwalk' : IsWalk n d (w1 ++ x :: w3) :=
          ⟨hhead ▸ hw.1, hlast ▸ hw.2⟩
        have hcost : walkCost adj (w1 ++ x :: w3)
            ≤ walkCost adj (w1 ++ x :: (w2 ++ x :: w3)) := by
          rw [walkCost_append_cons adj w1 x w3,
            walkCost_append_cons adj w1 x (w2 ++ x :: w3)]
          apply add_le_add_left
          have : x :: (w2 ++ x :: w3) = (x :: w2) ++ x :: w3 := by simp
          rw [this, walkCost_append_cons adj (x :: w2) x w3]
          exact le_add_self
        have hlen' : (w1 ++ x :: w3).length ≤ L := by
          have h1 : (w1 ++ x :: (w2 ++ x :: w3)).length ≤ L + 1 := hlen
          simp only [List.length_append, List.length_cons] at h1 ⊢
          omega
        obtain ⟨w'', hw'', hlen'', hcost''⟩ := ih (w1 ++ x :: w3) n d hlen' hwalk'
        exact ⟨w'', hw'', hlen'', le_trans hcost'' hcost⟩

theorem spDist_top_of_not_mem
    (hend : ∀ x y, adj x y ≠ ⊤ → x ∈ ids ∧ y ∈ ids)
    (a b : NodeId) (hb : b ∉ ids) (hab : a ≠ b) : spDist adj a b = ⊤ := by
  have hall : ∀ c ∈ WalkCosts adj a b, c = ⊤ := by
    rintro c ⟨w, ⟨hh, hl⟩, rfl⟩
    have hcost : ∀ (u : List NodeId), 2 ≤ u.length → u.getLast? = some b →
        walkCost adj u = ⊤ := by
      intro u
      induction u with
      | nil => intro h; simp at h
      | cons x u' ih =>
        intro hlen hlast
        match u' with
        | [] => simp at hlen
        | [y] =>
          have hy : y = b := by
            rw [List.getLast?_cons_cons] at hlast
            exact Option.some.inj hlast
          have hadj : adj x y = ⊤ := by
            by_contra hne
            exact hb (hy ▸ (hend x y hne).2)
          rw [walkCost, hadj, top_add]
        | y :: z :: rest =>
          rw [List.getLast?_cons_cons] at hlast
          rw [walkCost, ih (by simp) hlast, add_top]
    match w with
    | [] => exact Option.noConfusion hh
    | [x] =>
      have h1 : x = a := Option.some.inj hh
      have h2 : x = b := Option.some.inj hl
      exact absurd (h1 ▸ h2) hab
    | x :: y :: rest => exact hcost (x :: y :: rest) (by simp) hl
  obtain ⟨c, hc⟩ := walkCosts_nonempty adj a b
  have := csInf_mem ⟨c, hc⟩
  exact hall _ this

theorem bell_eq_spDist
    (hend : ∀ x y, adj x y ≠ ⊤ → x ∈ ids ∧ y ∈ ids)
    (hN : 2 ≤ ids.length) (n d : NodeId) :
    bell adj ids (ids.length - 2) n d = spDist adj n d := by
  apply le_antisymm
  · apply le_sInf
    rintro c ⟨w, hw, rfl⟩
    obtain ⟨w', hw', hlen', hcost'⟩ :=
      walk_shorten adj ids hend hN w.length w n d (le_refl _) hw
    refine le_trans ?_ hcost'
    apply bell_le_walkCost adj ids hend (ids.length - 2) w' n d hw'
    omega
  · exact spDist_le_bell adj ids (ids.length - 2) n d

end GraphLemmas

/-- A link of the topology: two endpoint ids and a finite cost. -/
abbrev Link := NodeId × NodeId × ℕ

/-- Adjacency update: the unordered pair a-b now costs c. -/
def adjUpd (adj : NodeId → NodeId → Cost) (a b : NodeId) (c : ℕ) :
    NodeId → NodeId → Cost :=
  fun x y => if (x = a ∧ y = b) ∨ (x = b ∧ y = a) then (c : Cost) else adj x y

/-- Adjacency described by a list of links applied in order (a later link on
the same pair overwrites an earlier one, exactly as repeated connectNodes
calls do). -/
def adjOf (links : List Link) : NodeId → NodeId → Cost :=
  links.foldl (fun f l => adjUpd f l.1 l.2.1 l.2.2) (fun _ _ => (⊤ : Cost))

/-- Build the network of a topology: add all nodes, then connect all links
(src/main.py lines 160-169 pattern). -/
def buildNet (ids : List NodeId) (links : List Link) : Network :=
  links.foldl (fun s l => s.connectNodes l.1 l.2.1 ((l.2.2 : ℕ) : Cost))
    (ids.foldl Network.addNode Network.empty)

theorem adjOf_endpoints (ids : List NodeId) (links : List Link)
    (hlinks : ∀ l ∈ links, l.1 ∈ ids ∧ l.2.1 ∈ ids ∧ l.1 ≠ l.2.1) :
    ∀ x y, adjOf links x y ≠ ⊤ → x ∈ ids ∧ y ∈ ids := by
  suffices h : ∀ (f : NodeId → NodeId → Cost),
      (∀ x y, f x y ≠ ⊤ → x ∈ ids ∧ y ∈ ids) →
      ∀ x y, (links.foldl (fun f l => adjUpd f l.1 l.2.1 l.2.2) f) x y ≠ ⊤ →
        x ∈ ids ∧ y ∈ ids by
    exact h _ (fun x y hxy => absurd rfl hxy)
  induction links with
  | nil => exact fun f hf => hf
  | cons l rest ih =>
    intro f hf x y
    rw [List.foldl_cons]
    apply ih (fun q hq => hlinks q (List.mem_cons_of_mem l hq))
    intro x' y' hne
    unfold adjUpd at hne
    by_cases hcond : (x' = l.1 ∧ y' = l.2.1) ∨ (x' = l.2.1 ∧ y' = l.1)
    · obtain ⟨h1, h2, _⟩ := hlinks l (List.mem_cons_self l rest)
      rcases hcond with ⟨rfl, rfl⟩ | ⟨rfl, rfl⟩
      · exact ⟨h1, h2⟩
      · exact ⟨h2, h1⟩
    · rw [if_neg hcond] at hne
      exact hf x' y' hne

/-- When the link cost to the neighbor is missing (Python would raise),
the modelled updateRoutingTable changes nothing: every candidate is ⊤. -/
theorem updateRoutingTable_top (node : Node) (nbId : NodeId)
    (tbl : List (NodeId × RouteEntry))
    (h : lookupA node.neighbors nbId = none) :
    node.updateRoutingTable nbId tbl = (node, false) := by
  have key : node.updateRoutingTable nbId tbl
      = ({ node with routingTable :=
            (tbl.foldl (updStep node.name (⊤ : Cost) nbId)
              (node.routingTable, false)).1 },
          (tbl.foldl (updStep node.name (⊤ : Cost) nbId)
            (node.routingTable, false)).2) := by
    unfold Node.updateRoutingTable
    rw [h]
    rfl
  have hfold : ∀ (tbl' : List (NodeId × RouteEntry))
      (acc : List (NodeId × RouteEntry) × Bool),
      tbl'.foldl (updStep node.name (⊤ : Cost) nbId) acc = acc := by
    intro tbl'
    induction tbl' with
    | nil => exact fun _ => rfl
    | cons item rest ih =>
      intro acc
      rw [List.foldl_cons]
      have hstep : updStep node.name (⊤ : Cost) nbId acc item = acc := by
        unfold updStep
        by_cases h1 : item.1 = node.name
        · rw [if_pos h1]
        · rw [if_neg h1]
          have : ¬ ((⊤ : Cost) + item.2.1 <
              ((lookupA acc.1 item.1).getD ((⊤ : Cost), none)).1) := by
            rw [top_add]
            exact not_top_lt
          simp only [if_neg this]
      rw [hstep, ih]
  rw [key, hfold]

/-- After the fold, the cost at an advertised destination is at most the
candidate built from the advertised entry. -/
theorem foldl_updStep_cost_le_cand (selfName : NodeId) (linkCost : Cost)
    (nbId : NodeId) (tbl : List (NodeId × RouteEntry))
    (rt0 : List (NodeId × RouteEntry)) (b0 : Bool) (d : NodeId)
    (e : RouteEntry) (hd : lookupA tbl d = some e) (hself : d ≠ selfName) :
    entryCost (lookupA (tbl.foldl (updStep selfName linkCost nbId)
      (rt0, b0)).1 d) ≤ linkCost + e.1 := by
  induction tbl generalizing rt0 b0 with
  | nil => simp [lookupA] at hd
  | cons item tl ih =>
    obtain ⟨k, e₀⟩ := item
    rw [List.foldl_cons]
    by_cases hk : k = d
    · subst hk
      have he : e₀ = e := by simpa [lookupA] using hd
      subst he
      have hks : ¬ k = selfName := fun h => hself (h ▸ rfl)
      by_cases hlt : linkCost + e₀.1 < entryCost (lookupA rt0 k)
      · have hstep : updStep selfName linkCost nbId (rt0, b0) (k, e₀)
            = (setA rt0 k (linkCost + e₀.1, some nbId), true) := by
          unfold updStep
          simp only [if_neg hks]
          simp only [entryCost] at hlt
          simp [hlt]
        rw [hstep]
        refine le_trans (foldl_updStep_cost_le selfName linkCost nbId tl _ k) ?_
        show entryCost (lookupA (setA rt0 k (linkCost + e₀.1, some nbId)) k) ≤ _
        rw [lookupA_setA, if_pos rfl]
        exact le_refl _
      · have hstep : updStep selfName linkCost nbId (rt0, b0) (k, e₀)
            = (rt0, b0) := by
          unfold updStep
          simp only [if_neg hks]
          simp only [entryCost] at hlt
          simp [hlt]
        rw [hstep]
        refine le_trans (foldl_updStep_cost_le selfName linkCost nbId tl _ k) ?_
        exact not_lt.mp hlt
    · have hd' : lookupA tl d = some e := by simpa [lookupA, hk] using hd
      exact ih _ _ hd'

/-- Characterization of a freshly built network: keys are exactly ids, every
node carries its key as name, its neighbor map realizes the adjacency adj,
its routing table has unique keys, the self entry (0, self), and exactly the
direct entries (adj k m, m) elsewhere. -/
structure Built (adj : NodeId → NodeId → Cost) (ids : List NodeId)
    (net : Network) : Prop where
  keys : net.nodes.map Prod.fst = ids
  props : ∀ k n, lookupA net.nodes k = some n →
    n.name = k ∧
    (∀ m, lookupA n.neighbors m
      = if adj k m = ⊤ then none else some (adj k m)) ∧
    (n.routingTable.map Prod.fst).Nodup ∧
    lookupA n.routingTable k = some ((0 : Cost), some k) ∧
    (∀ m, m ≠ k → lookupA n.routingTable m
      = if adj k m = ⊤ then none else some (adj k m, some m))

theorem addNode_fold (l : List NodeId) (net : Network) (hnd : l.Nodup)
    (hdisj : ∀ k ∈ l, k ∉ net.nodes.map Prod.fst) :
    ((l.foldl Network.addNode net).nodes.map Prod.fst
        = net.nodes.map Prod.fst ++ l) ∧
    (∀ k ∈ l, lookupA (l.foldl Network.addNode net).nodes k
        = some (Node.init k)) ∧
    (∀ k, k ∉ l → lookupA (l.foldl Network.addNode net).nodes k
        = lookupA net.nodes k) := by
  induction l generalizing net with
  | nil => exact ⟨by simp, by simp, fun k _ => rfl⟩
  | cons a l' ih =>
    have hna : a ∉ net.nodes.map Prod.fst :=
      hdisj a (List.mem_cons_self a l')
    have hnd' := (List.nodup_cons.mp hnd)
    have hkeys1 : (net.addNode a).nodes.map Prod.fst
        = net.nodes.map Prod.fst ++ [a] :=
      keys_setA_of_not_mem _ _ _ hna
    have hdisj' : ∀ k ∈ l', k ∉ (net.addNode a).nodes.map Prod.fst := by
      intro k hk
      rw [hkeys1]
      intro hmem
      rcases List.mem_append.mp hmem with hm | hm
      · exact hdisj k (List.mem_cons_of_mem a hk) hm
      · rw [List.mem_singleton] at hm
        exact hnd'.1 (hm ▸ hk)
    obtain ⟨ihk, ihmem, ihout⟩ := ih (net.addNode a) hnd'.2 hdisj'
    refine ⟨?_, ?_, ?_⟩
    · rw [List.foldl_cons, ihk, hkeys1, List.append_assoc]
      rfl
    · intro k hk
      rcases List.mem_cons.mp hk with rfl | hk'
      · rw [List.foldl_cons, ihout k hnd'.1]
        show lookupA (setA net.nodes k (Node.init k)) k = some (Node.init k)
        rw [lookupA_setA, if_pos rfl]
      · exact ihmem k hk'
    · intro k hk
      have hka : k ≠ a := fun h => hk (h ▸ List.mem_cons_self a l')
      have hkl : k ∉ l' := fun h => hk (List.mem_cons_of_mem a h)
      rw [List.foldl_cons, ihout k hkl]
      show lookupA (setA net.nodes a (Node.init a)) k = lookupA net.nodes k
      rw [lookupA_setA, if_neg (Ne.symm hka)]

theorem built_base (ids : List NodeId) (hnd : ids.Nodup) :
    Built (fun _ _ => (⊤ : Cost)) ids (ids.foldl Network.addNode Network.empty) := by
  obtain ⟨hkeys, hmem, hout⟩ :=
    addNode_fold ids Network.empty hnd (fun k _ => by simp [Network.empty])
  refine ⟨by simpa using hkeys, ?_⟩
  intro k n hl
  by_cases hk : k ∈ ids
  · rw [hmem k hk] at hl
    have hn := Option.some.inj hl
    subst hn
    refine ⟨rfl, fun m => rfl, by simp [Node.init], ?_, fun m hm => ?_⟩
    · simp [Node.init, lookupA]
    · rw [if_pos rfl]
      simp [Node.init, lookupA, Ne.symm hm]
  · rw [hout k hk] at hl
    exact Option.noConfusion hl

theorem connectNodes_lookup (net : Network) (a b : NodeId) (c : Cost)
    (na nb : Node) (hna : lookupA net.nodes a = some na)
    (hnb : lookupA net.nodes b = some nb) (hab : a ≠ b) :
    (∀ k, k ≠ a → k ≠ b →
      lookupA (net.connectNodes a b c).nodes k = lookupA net.nodes k) ∧
    lookupA (net.connectNodes a b c).nodes a
      = some { na with
               neighbors := setA na.neighbors b c
               routingTable := setA na.routingTable b (c, some b) } ∧
    lookupA (net.connectNodes a b c).nodes b
      = some { nb with
               neighbors := setA nb.neighbors a c
               routingTable := setA nb.routingTable a (c, some a) } := by
  unfold Network.connectNodes
  rw [hna, hnb]
  simp only [Option.isSome_some, Bool.and_self, if_pos]
  refine ⟨?_, ?_, ?_⟩
  · intro k hka hkb
    simp [lookupA_modifyNode, hab, Ne.symm hab, Ne.symm hka, Ne.symm hkb]
  · simp [lookupA_modifyNode, hab, Ne.symm hab, hna, hnb]
  · simp [lookupA_modifyNode, hab, Ne.symm hab, hna, hnb]

theorem keys_modifyNode (net : Network) (k : NodeId) (f : Node → Node) :
    (modifyNode net k f).nodes.map Prod.fst = net.nodes.map Prod.fst := by
  unfold modifyNode
  rcases h : lookupA net.nodes k with _ | n
  · rfl
  · exact keys_setA_of_mem _ _ _ ((lookupA_isSome_iff _ _).mp (by rw [h]; rfl))

theorem keys_connectNodes (net : Network) (a b : NodeId) (c : Cost) :
    (net.connectNodes a b c).nodes.map Prod.fst = net.nodes.map Prod.fst := by
  unfold Network.connectNodes
  by_cases hguard : ((lookupA net.nodes a).isSome
      && (lookupA net.nodes b).isSome) = true
  · rw [if_pos hguard, keys_modifyNode, keys_modifyNode, keys_modifyNode,
      keys_modifyNode]
  · rw [if_neg hguard]

theorem built_connect (adj : NodeId → NodeId → Cost) (ids : List NodeId)
    (net : Network) (hB : Built adj ids net) (a b : NodeId) (c : ℕ)
    (ha : a ∈ ids) (hb : b ∈ ids) (hab : a ≠ b) :
    Built (adjUpd adj a b c) ids (net.connectNodes a b ((c : ℕ) : Cost)) := by
  have hsa : (lookupA net.nodes a).isSome = true :=
    (lookupA_isSome_iff _ _).mpr (hB.keys ▸ ha)
  have hsb : (lookupA net.nodes b).isSome = true :=
    (lookupA_isSome_iff _ _).mpr (hB.keys ▸ hb)
  obtain ⟨na, hna⟩ := Option.isSome_iff_exists.mp hsa
  obtain ⟨nb, hnb⟩ := Option.isSome_iff_exists.mp hsb
  obtain ⟨hother, hla, hlb⟩ :=
    connectNodes_lookup net a b ((c : ℕ) : Cost) na nb hna hnb hab
  obtain ⟨hnaname, hnanb, hnand, hnaself, hnadir⟩ := hB.props a na hna
  obtain ⟨hnbname, hnbnb, hnbnd, hnbself, hnbdir⟩ := hB.props b nb hnb
  have hcoe : ((c : ℕ) : Cost) ≠ ⊤ := ENat.coe_ne_top c
  refine ⟨by rw [keys_connectNodes]; exact hB.keys, ?_⟩
  intro k n hl
  by_cases hka : a = k
  · subst hka
    have hn : n = { na with
        neighbors := setA na.neighbors b ((c : ℕ) : Cost)
        routingTable := setA na.routingTable b (((c : ℕ) : Cost), some b) } :=
      Option.some.inj (hl.symm.trans hla)
    subst hn
    refine ⟨hnaname, ?_, nodup_keys_setA _ _ _ hnand, ?_, ?_⟩
    · intro m
      show lookupA (setA na.neighbors b ((c : ℕ) : Cost)) m = _
      rw [lookupA_setA]
      by_cases hmb : b = m
      · subst hmb
        rw [if_pos rfl]
        have : adjUpd adj a b c a b = ((c : ℕ) : Cost) := by
          unfold adjUpd
          rw [if_pos (Or.inl ⟨rfl, rfl⟩)]
        rw [this, if_neg hcoe]
      · rw [if_neg hmb, hnanb m]
        have : adjUpd adj a b c a m = adj a m := by
          unfold adjUpd
          rw [if_neg]
          rintro (⟨_, h2⟩ | ⟨h1, _⟩)
          · exact hmb h2.symm
          · exact hab h1
        rw [this]
    · show lookupA (setA na.routingTable b (((c : ℕ) : Cost), some b)) a = _
      rw [lookupA_setA, if_neg (Ne.symm hab)]
      exact hnaself
    · intro m hm
      show lookupA (setA na.routingTable b (((c : ℕ) : Cost), some b)) m = _
      rw [lookupA_setA]
      by_cases hmb : b = m
      · subst hmb
        rw [if_pos rfl]
        have : adjUpd adj a b c a b = ((c : ℕ) : Cost) := by
          unfold adjUpd
          rw [if_pos (Or.inl ⟨rfl, rfl⟩)]
        rw [this, if_neg hcoe]
      · rw [if_neg hmb, hnadir m hm]
        have : adjUpd adj a b c a m = adj a m := by
          unfold adjUpd
          rw [if_neg]
          rintro (⟨_, h2⟩ | ⟨h1, _⟩)
          · exact hmb h2.symm
          · exact hab h1
        rw [this]
  · by_cases hkb : b = k
    · subst hkb
      have hn : n = { nb with
          neighbors := setA nb.neighbors a ((c : ℕ) : Cost)
          routingTable := setA nb.routingTable a (((c : ℕ) : Cost), some a) } :=
        Option.some.inj (hl.symm.trans hlb)
      subst hn
      refine ⟨hnbname, ?_, nodup_keys_setA _ _ _ hnbnd, ?_, ?_⟩
      · intro m
        show lookupA (setA nb.neighbors a ((c : ℕ) : Cost)) m = _
        rw [lookupA_setA]
        by_cases hma : a = m
        · subst hma
          rw [if_pos rfl]
          have : adjUpd adj a b c b a = ((c : ℕ) : Cost) := by
            unfold adjUpd
            rw [if_pos (Or.inr ⟨rfl, rfl⟩)]
          rw [this, if_neg hcoe]
        · rw [if_neg hma, hnbnb m]
          have : adjUpd adj a b c b m = adj b m := by
            unfold adjUpd
            rw [if_neg]
            rintro (⟨h1, _⟩ | ⟨_, h2⟩)
            · exact hab h1.symm
            · exact hma h2.symm
          rw [this]
      · show lookupA (setA nb.routingTable a (((c : ℕ) : Cost), some a)) b = _
        rw [lookupA_setA, if_neg hab]
        exact hnbself
      · intro m hm
        show lookupA (setA nb.routingTable a (((c : ℕ) : Cost), some a)) m = _
        rw [lookupA_setA]
        by_cases hma : a = m
        · subst hma
          rw [if_pos rfl]
          have : adjUpd adj a b c b a = ((c : ℕ) : Cost) := by
            unfold adjUpd
            rw [if_pos (Or.inr ⟨rfl, rfl⟩)]
          rw [this, if_neg hcoe]
        · rw [if_neg hma, hnbdir m hm]
          have : adjUpd adj a b c b m = adj b m := by
            unfold adjUpd
            rw [if_neg]
            rintro (⟨h1, _⟩ | ⟨_, h2⟩)
            · exact hab h1.symm
            · exact hma h2.symm
          rw [this]
    · rw [hother k (Ne.symm hka) (Ne.symm hkb)] at hl
      obtain ⟨h1, h2, h3, h4, h5⟩ := hB.props k n hl
      have hupd : ∀ m, adjUpd adj a b c k m = adj k m := by
        intro m
        unfold adjUpd
        rw [if_neg]
        rintro (⟨h', _⟩ | ⟨h', _⟩)
        · exact hka h'.symm
        · exact hkb h'.symm
      refine ⟨h1, fun m => ?_, h3, h4, fun m hm => ?_⟩
      · rw [hupd m]
        exact h2 m
      · rw [hupd m]
        exact h5 m hm

theorem built_buildNet (ids : List NodeId) (links : List Link)
    (hnd : ids.Nodup)
    (hlinks : ∀ l ∈ links, l.1 ∈ ids ∧ l.2.1 ∈ ids ∧ l.1 ≠ l.2.1) :
    Built (adjOf links) ids (buildNet ids links) := by
  unfold buildNet adjOf
  suffices h : ∀ (f : NodeId → NodeId → Cost) (net : Network),
      Built f ids net →
      Built (links.foldl (fun f l => adjUpd f l.1 l.2.1 l.2.2) f) ids
        (links.foldl
          (fun s l => s.connectNodes l.1 l.2.1 ((l.2.2 : ℕ) : Cost)) net) by
    exact h _ _ (built_base ids hnd)
  induction links with
  | nil => exact fun f net hB => hB
  | cons l rest ih =>
    intro f net hB
    rw [List.foldl_cons, List.foldl_cons]
    obtain ⟨h1, h2, h3⟩ := hlinks l (List.mem_cons_self l rest)
    exact ih (fun q hq => hlinks q (List.mem_cons_of_mem l hq)) _ _
      (built_connect f ids net hB l.1 l.2.1 l.2.2 h1 h2 h3)

theorem network_cost_eq_node (net : Network) (k : NodeId) (n : Node)
    (h : lookupA net.nodes k = some n) (d : NodeId) :
    Network.cost net k d = n.cost d := by
  unfold Network.cost
  rw [h]

theorem built_cost (adj : NodeId → NodeId → Cost) (ids : List NodeId)
    (net : Network) (hB : Built adj ids net) (k : NodeId) (hk : k ∈ ids)
    (d : NodeId) :
    Network.cost net k d = if k = d then 0 else adj k d := by
  have hs : (lookupA net.nodes k).isSome = true :=
    (lookupA_isSome_iff _ _).mpr (hB.keys ▸ hk)
  obtain ⟨n, hn⟩ := Option.isSome_iff_exists.mp hs
  obtain ⟨_, _, _, hself, hdir⟩ := hB.props k n hn
  rw [network_cost_eq_node net k n hn d]
  by_cases hkd : k = d
  · subst hkd
    rw [if_pos rfl]
    unfold Node.cost
    rw [hself]
    rfl
  · rw [if_neg hkd]
    unfold Node.cost
    rw [hdir d (Ne.symm hkd)]
    by_cases htop : adj k d = ⊤
    · rw [if_pos htop, htop]
      rfl
    · rw [if_neg htop]
      rfl

theorem updateRoutingTable_key (node : Node) (nbId : NodeId)
    (tbl : List (NodeId × RouteEntry)) (c : Cost)
    (hc : lookupA node.neighbors nbId = some c) :
    node.updateRoutingTable nbId tbl
      = ({ node with routingTable :=
            (tbl.foldl (updStep node.name c nbId) (node.routingTable, false)).1 },
          (tbl.foldl (updStep node.name c nbId)
            (node.routingTable, false)).2) := by
  unfold Node.updateRoutingTable
  rw [hc]
  rfl

theorem foldl_updStep_nodup (selfName : NodeId) (linkCost : Cost)
    (nbId : NodeId) (tbl : List (NodeId × RouteEntry))
    (acc : List (NodeId × RouteEntry) × Bool)
    (h : (acc.1.map Prod.fst).Nodup) :
    (((tbl.foldl (updStep selfName linkCost nbId) acc).1).map Prod.fst).Nodup := by
  induction tbl generalizing acc with
  | nil => exact h
  | cons item tl ih =>
    rw [List.foldl_cons]
    apply ih
    unfold updStep
    by_cases h1 : item.1 = selfName
    · rw [if_pos h1]
      exact h
    · rw [if_neg h1]
      by_cases h2 : linkCost + item.2.1 <
          ((lookupA acc.1 item.1).getD ((⊤ : Cost), none)).1
      · rw [if_pos h2]
        exact nodup_keys_setA _ _ _ h
      · rw [if_neg h2]
        exact h

theorem updateRoutingTable_rt_nodup (node : Node) (nbId : NodeId)
    (tbl : List (NodeId × RouteEntry))
    (hnd : (node.routingTable.map Prod.fst).Nodup) :
    (((node.updateRoutingTable nbId tbl).1.routingTable).map Prod.fst).Nodup := by
  show (((tbl.foldl (updStep node.name
      ((lookupA node.neighbors nbId).getD (⊤ : Cost)) nbId)
      (node.routingTable, false)).1).map Prod.fst).Nodup
  exact foldl_updStep_nodup _ _ _ tbl _ hnd

theorem updateRoutingTable_flag_iff (node : Node) (nbId : NodeId)
    (tbl : List (NodeId × RouteEntry)) (c : Cost)
    (hc : lookupA node.neighbors nbId = some c)
    (hn : (tbl.map Prod.fst).Nodup) :
    (node.updateRoutingTable nbId tbl).2 = true ↔
      ∃ d e, lookupA tbl d = some e ∧ d ≠ node.name ∧
        c + e.1 < entryCost (lookupA node.routingTable d) := by
  rw [updateRoutingTable_key node nbId tbl c hc]
  exact foldl_updStep_flag_iff node.name c nbId tbl hn node.routingTable

theorem updateRoutingTable_cost_cases (node : Node) (nbId : NodeId)
    (tbl : List (NodeId × RouteEntry)) (c : Cost)
    (hc : lookupA node.neighbors nbId = some c)
    (hn : (tbl.map Prod.fst).Nodup) (d : NodeId) :
    (node.updateRoutingTable nbId tbl).1.cost d = node.cost d ∨
    ∃ e, lookupA tbl d = some e ∧ d ≠ node.name ∧
      (node.updateRoutingTable nbId tbl).1.cost d = c + e.1 := by
  rw [updateRoutingTable_key node nbId tbl c hc]
  unfold Node.cost
  rcases hld : lookupA tbl d with _ | e
  · left
    show entryCost (lookupA (tbl.foldl (updStep node.name c nbId)
      (node.routingTable, false)).1 d) = _
    rw [foldl_updStep_lookup_frozen node.name c nbId tbl _ _ d]
    intro p hp
    right
    intro hpd
    exact absurd (List.mem_map.mpr ⟨p, hp, hpd⟩)
      ((lookupA_eq_none_iff tbl d).mp hld)
  · by_cases hdn : d = node.name
    · left
      show entryCost (lookupA (tbl.foldl (updStep node.name c nbId)
        (node.routingTable, false)).1 d) = _
      rw [foldl_updStep_lookup_frozen node.name c nbId tbl _ _ d]
      intro p hp
      by_cases h : p.1 = node.name
      · exact Or.inl h
      · exact Or.inr (fun hpd => h (hpd.trans hdn))
    · have hh := foldl_updStep_lookup_hit node.name c nbId tbl hn
        node.routingTable false d e hld hdn
      by_cases hlt : c + e.1 < entryCost (lookupA node.routingTable d)
      · right
        refine ⟨e, rfl, hdn, ?_⟩
        show entryCost (lookupA (tbl.foldl (updStep node.name c nbId)
          (node.routingTable, false)).1 d) = _
        rw [hh, if_pos hlt]
        rfl
      · left
        show entryCost (lookupA (tbl.foldl (updStep node.name c nbId)
          (node.routingTable, false)).1 d) = _
        rw [hh, if_neg hlt]

theorem updateRoutingTable_cost_le_cand (node : Node) (nbId : NodeId)
    (tbl : List (NodeId × RouteEntry)) (c : Cost)
    (hc : lookupA node.neighbors nbId = some c) (d : NodeId) (e : RouteEntry)
    (hd : lookupA tbl d = some e) (hself : d ≠ node.name) :
    (node.updateRoutingTable nbId tbl).1.cost d ≤ c + e.1 := by
  rw [updateRoutingTable_key node nbId tbl c hc]
  exact foldl_updStep_cost_le_cand node.name c nbId tbl _ _ d e hd hself

theorem stepPair_eq (acc : Network × Bool) (p : NodeId × NodeId)
    (nbNode cur : Node) (h2 : lookupA acc.1.nodes p.2 = some nbNode)
    (h1 : lookupA acc.1.nodes p.1 = some cur) :
    stepPair acc p
      = (⟨setA acc.1.nodes p.1
            (cur.updateRoutingTable p.2 nbNode.routingTable).1⟩,
          acc.2 || (cur.updateRoutingTable p.2 nbNode.routingTable).2) := by
  unfold stepPair exchangeStep
  rw [h2, h1]
  rfl

theorem stepPair_eq_of_none (acc : Network × Bool) (p : NodeId × NodeId)
    (h : lookupA acc.1.nodes p.2 = none ∨ lookupA acc.1.nodes p.1 = none) :
    stepPair acc p = acc := by
  unfold stepPair exchangeStep
  rcases h with h | h
  · rw [h]
  · rw [h]
    rcases lookupA acc.1.nodes p.2 with _ | x <;> rfl

theorem stepPair_lookup_cases (acc : Network × Bool) (p : NodeId × NodeId)
    (k : NodeId) :
    lookupA (stepPair acc p).1.nodes k = lookupA acc.1.nodes k ∨
    ∃ nbNode cur, lookupA acc.1.nodes p.2 = some nbNode ∧
      lookupA acc.1.nodes p.1 = some cur ∧ p.1 = k ∧
      lookupA (stepPair acc p).1.nodes k
        = some (cur.updateRoutingTable p.2 nbNode.routingTable).1 := by
  rcases h2 : lookupA acc.1.nodes p.2 with _ | nbNode
  · rw [stepPair_eq_of_none acc p (Or.inl h2)]
    exact Or.inl rfl
  · rcases h1 : lookupA acc.1.nodes p.1 with _ | cur
    · rw [stepPair_eq_of_none acc p (Or.inr h1)]
      exact Or.inl rfl
    · rw [stepPair_eq acc p nbNode cur h2 h1]
      by_cases hk : p.1 = k
      · right
        refine ⟨nbNode, cur, rfl, rfl, hk, ?_⟩
        show lookupA (setA acc.1.nodes p.1
          (cur.updateRoutingTable p.2 nbNode.routingTable).1) k = _
        rw [lookupA_setA, if_pos hk]
      · left
        show lookupA (setA acc.1.nodes p.1
          (cur.updateRoutingTable p.2 nbNode.routingTable).1) k = _
        rw [lookupA_setA, if_neg hk]

/-- The invariant the rounds preserve on a built network: keys are ids,
every node carries its key as name, realizes the adjacency in its
neighbor-cost map, has a duplicate-free routing table and the pristine
self entry. -/
structure WfNet (adj : NodeId → NodeId → Cost) (ids : List NodeId)
    (net : Network) : Prop where
  keys : net.nodes.map Prod.fst = ids
  props : ∀ k n, lookupA net.nodes k = some n →
    n.name = k ∧
    (∀ m, lookupA n.neighbors m
      = if adj k m = ⊤ then none else some (adj k m)) ∧
    (n.routingTable.map Prod.fst).Nodup ∧
    lookupA n.routingTable k = some ((0 : Cost), some k)

theorem built_wfNet (adj : NodeId → NodeId → Cost) (ids : List NodeId)
    (net : Network) (hB : Built adj ids net) : WfNet adj ids net := by
  refine ⟨hB.keys, ?_⟩
  intro k n hl
  obtain ⟨h1, h2, h3, h4, _⟩ := hB.props k n hl
  exact ⟨h1, h2, h3, h4⟩

theorem wfNet_stepPair (adj : NodeId → NodeId → Cost) (ids : List NodeId)
    (acc : Network × Bool) (p : NodeId × NodeId) (hwf : WfNet adj ids acc.1) :
    WfNet adj ids (stepPair acc p).1 := by
  refine ⟨(stepPair_frame acc p).1.trans hwf.keys, ?_⟩
  intro k n hl
  rcases stepPair_lookup_cases acc p k with heq | ⟨nbNode, cur, h2, h1, hpk, hset⟩
  · exact hwf.props k n (heq ▸ hl)
  · subst hpk
    rw [hl] at hset
    have hn : n = (cur.updateRoutingTable p.2 nbNode.routingTable).1 :=
      Option.some.inj hset
    obtain ⟨c1, c2, c3, c4⟩ := hwf.props p.1 cur h1
    subst hn
    refine ⟨?_, ?_, ?_, ?_⟩
    · rw [updateRoutingTable_name]
      exact c1
    · rw [updateRoutingTable_neighbors]
      exact c2
    · exact updateRoutingTable_rt_nodup cur p.2 nbNode.routingTable c3
    · have := updateRoutingTable_lookup_self cur p.2 nbNode.routingTable
      rw [c1] at this
      rw [this]
      exact c4

theorem wfNet_foldl (adj : NodeId → NodeId → Cost) (ids : List NodeId)
    (pairs : List (NodeId × NodeId)) (acc : Network × Bool)
    (hwf : WfNet adj ids acc.1) : WfNet adj ids (pairs.foldl stepPair acc).1 := by
  induction pairs generalizing acc with
  | nil => exact hwf
  | cons p rest ih =>
    rw [List.foldl_cons]
    exact ih _ (wfNet_stepPair adj ids acc p hwf)

theorem wfNet_round (adj : NodeId → NodeId → Cost) (ids : List NodeId)
    (net : Network) (hwf : WfNet adj ids net) :
    WfNet adj ids (net.simulateIteration).1 := by
  rw [simulateIteration_eq_pairs]
  exact wfNet_foldl adj ids (nodePairs net) (net, false) hwf

/-- Every recorded cost is at least the true distance. -/
def ValidNet (adj : NodeId → NodeId → Cost) (net : Network) : Prop :=
  ∀ k d, spDist adj k d ≤ Network.cost net k d

theorem valid_stepPair (adj : NodeId → NodeId → Cost) (ids : List NodeId)
    (acc : Network × Bool) (p : NodeId × NodeId) (hwf : WfNet adj ids acc.1)
    (hv : ValidNet adj acc.1) : ValidNet adj (stepPair acc p).1 := by
  intro k d
  rcases stepPair_lookup_cases acc p k with heq | ⟨nbNode, cur, h2, h1, hpk, hset⟩
  · have : Network.cost (stepPair acc p).1 k d = Network.cost acc.1 k d := by
      unfold Network.cost
      rw [heq]
    rw [this]
    exact hv k d
  · subst hpk
    have hcost : Network.cost (stepPair acc p).1 p.1 d
        = (cur.updateRoutingTable p.2 nbNode.routingTable).1.cost d :=
      network_cost_eq_node _ p.1 _ hset d
    rw [hcost]
    obtain ⟨c1, c2, _, _⟩ := hwf.props p.1 cur h1
    obtain ⟨_, _, b3, _⟩ := hwf.props p.2 nbNode h2
    by_cases hadj : adj p.1 p.2 = ⊤
    · have hnone : lookupA cur.neighbors p.2 = none := by
        rw [c2 p.2, if_pos hadj]
      rw [updateRoutingTable_top cur p.2 nbNode.routingTable hnone]
      rw [← network_cost_eq_node acc.1 p.1 cur h1 d]
      exact hv p.1 d
    · have hc : lookupA cur.neighbors p.2 = some (adj p.1 p.2) := by
        rw [c2 p.2, if_neg hadj]
      have hnbnd : (nbNode.routingTable.map Prod.fst).Nodup := b3
      rcases updateRoutingTable_cost_cases cur p.2 nbNode.routingTable
          (adj p.1 p.2) hc hnbnd d with hcc | ⟨e, hde, _, hcc⟩
      · rw [hcc, ← network_cost_eq_node acc.1 p.1 cur h1 d]
        exact hv p.1 d
      · rw [hcc]
        have he1 : e.1 = Network.cost acc.1 p.2 d := by
          rw [network_cost_eq_node acc.1 p.2 nbNode h2 d]
          unfold Node.cost
          rw [hde]
          rfl
        rw [he1]
        exact le_trans (spDist_triangle adj p.1 p.2 d)
          (add_le_add_left (hv p.2 d) _)

theorem valid_foldl (adj : NodeId → NodeId → Cost) (ids : List NodeId)
    (pairs : List (NodeId × NodeId)) (acc : Network × Bool)
    (hwf : WfNet adj ids acc.1) (hv : ValidNet adj acc.1) :
    ValidNet adj (pairs.foldl stepPair acc).1 := by
  induction pairs generalizing acc with
  | nil => exact hv
  | cons p rest ih =>
    rw [List.foldl_cons]
    exact ih _ (wfNet_stepPair adj ids acc p hwf)
      (valid_stepPair adj ids acc p hwf hv)

theorem valid_round (adj : NodeId → NodeId → Cost) (ids : List NodeId)
    (net : Network) (hwf : WfNet adj ids net) (hv : ValidNet adj net) :
    ValidNet adj (net.simulateIteration).1 := by
  rw [simulateIteration_eq_pairs]
  exact valid_foldl adj ids (nodePairs net) (net, false) hwf hv

theorem wfNet_self_cost (adj : NodeId → NodeId → Cost) (ids : List NodeId)
    (net : Network) (hwf : WfNet adj ids net) (n : NodeId) (hn : n ∈ ids) :
    Network.cost net n n = 0 := by
  have hs : (lookupA net.nodes n).isSome = true :=
    (lookupA_isSome_iff _ _).mpr (hwf.keys ▸ hn)
  obtain ⟨node, hnode⟩ := Option.isSome_iff_exists.mp hs
  rw [network_cost_eq_node net n node hnode n]
  unfold Node.cost
  rw [(hwf.props n node hnode).2.2.2]
  rfl

/-- After one round, a node's cost to d is bounded by the candidate through
any of its neighbors, evaluated on the round-start state. -/
theorem round_cost_le_via (adj : NodeId → NodeId → Cost) (ids : List NodeId)
    (s : Network) (hwf : WfNet adj ids s) (n m d : NodeId) (hn : n ∈ ids)
    (hm : m ∈ ids) (hadj : adj n m ≠ ⊤) (hd : d ≠ n) :
    Network.cost (s.simulateIteration).1 n d ≤ adj n m + Network.cost s m d := by
  have hsn : (lookupA s.nodes n).isSome = true :=
    (lookupA_isSome_iff _ _).mpr (hwf.keys ▸ hn)
  obtain ⟨node, hnode⟩ := Option.isSome_iff_exists.mp hsn
  obtain ⟨_, w2, _, _⟩ := hwf.props n node hnode
  have hlm : lookupA node.neighbors m = some (adj n m) := by
    rw [w2 m, if_neg hadj]
  have hpair : (n, m) ∈ nodePairs s := by
    unfold nodePairs
    apply List.mem_flatMap.mpr
    refine ⟨n, hwf.keys ▸ hn, ?_⟩
    rw [hnode]
    simp only [Option.map_some', Option.getD_some]
    exact List.mem_map.mpr ⟨(m, adj n m), mem_of_lookupA hlm, rfl⟩
  obtain ⟨P1, P2, hsplit⟩ := List.append_of_mem hpair
  rw [simulateIteration_eq_pairs, hsplit, List.foldl_append, List.foldl_cons]
  have hs1wf : WfNet adj ids (P1.foldl stepPair (s, false)).1 :=
    wfNet_foldl adj ids P1 (s, false) hwf
  have hs1n : (lookupA (P1.foldl stepPair (s, false)).1.nodes n).isSome = true :=
    (lookupA_isSome_iff _ _).mpr (hs1wf.keys ▸ hn)
  obtain ⟨cur, hcur⟩ := Option.isSome_iff_exists.mp hs1n
  obtain ⟨c1, c2, _, _⟩ := hs1wf.props n cur hcur
  have hcm : lookupA cur.neighbors m = some (adj n m) := by
    rw [c2 m, if_neg hadj]
  have hs1m : (lookupA (P1.foldl stepPair (s, false)).1.nodes m).isSome = true :=
    (lookupA_isSome_iff _ _).mpr (hs1wf.keys ▸ hm)
  obtain ⟨nbNode1, hnb1⟩ := Option.isSome_iff_exists.mp hs1m
  rw [stepPair_eq (P1.foldl stepPair (s, false)) (n, m) nbNode1 cur hnb1 hcur]
  refine le_trans (foldl_stepPair_cost_le P2 _ n d) ?_
  have hcost : Network.cost (⟨setA (P1.foldl stepPair (s, false)).1.nodes n
      (cur.updateRoutingTable m nbNode1.routingTable).1⟩ : Network) n d
      = (cur.updateRoutingTable m nbNode1.routingTable).1.cost d := by
    apply network_cost_eq_node
    show lookupA (setA (P1.foldl stepPair (s, false)).1.nodes n
      (cur.updateRoutingTable m nbNode1.routingTable).1) n = _
    rw [lookupA_setA, if_pos rfl]
  rw [hcost]
  have hmono := foldl_stepPair_cost_le P1 (s, false) m d
  rcases hld : lookupA nbNode1.routingTable d with _ | e
  · have h1 : Network.cost (P1.foldl stepPair (s, false)).1 m d = ⊤ := by
      rw [network_cost_eq_node _ m nbNode1 hnb1 d]
      unfold Node.cost
      rw [hld]
      rfl
    have h2 : Network.cost s m d = ⊤ :=
      top_le_iff.mp (h1 ▸ hmono)
    rw [h2, add_top]
    exact le_top
  · have hdname : d ≠ cur.name := by
      rw [c1]
      exact hd
    refine le_trans (updateRoutingTable_cost_le_cand cur m nbNode1.routingTable
      (adj n m) hcm d e hld hdname) ?_
    apply add_le_add_left
    have he : e.1 = Network.cost (P1.foldl stepPair (s, false)).1 m d := by
      rw [network_cost_eq_node _ m nbNode1 hnb1 d]
      unfold Node.cost
      rw [hld]
      rfl
    rw [he]
    exact hmono

/-- A state whose costs on ids equal the true distances reports no change. -/
theorem round_false_of_optimal (adj : NodeId → NodeId → Cost)
    (ids : List NodeId) (s : Network) (hwf : WfNet adj ids s)
    (hv : ValidNet adj s)
    (hend : ∀ x y, adj x y ≠ ⊤ → x ∈ ids ∧ y ∈ ids)
    (hopt : ∀ a b, a ∈ ids → b ∈ ids → Network.cost s a b = spDist adj a b) :
    (s.simulateIteration).2 = false := by
  have hkey : (s.simulateIteration).2
      = ((nodePairs s).foldl stepPair (s, false)).2 := by
    rw [simulateIteration_eq_pairs]
  rw [hkey, foldl_stepPair_false_iff]
  intro p _ nbNode cur h2 h1
  have hp1 : p.1 ∈ ids :=
    hwf.keys ▸ ((lookupA_isSome_iff _ _).mp (by rw [h1]; rfl))
  have hp2 : p.2 ∈ ids :=
    hwf.keys ▸ ((lookupA_isSome_iff _ _).mp (by rw [h2]; rfl))
  obtain ⟨c1, c2, _, _⟩ := hwf.props p.1 cur h1
  obtain ⟨_, _, b3, _⟩ := hwf.props p.2 nbNode h2
  by_cases hadj : adj p.1 p.2 = ⊤
  · have hnone : lookupA cur.neighbors p.2 = none := by
      rw [c2 p.2, if_pos hadj]
    rw [updateRoutingTable_top cur p.2 nbNode.routingTable hnone]
  · have hc : lookupA cur.neighbors p.2 = some (adj p.1 p.2) := by
      rw [c2 p.2, if_neg hadj]
    by_contra hbc
    rw [Bool.not_eq_false] at hbc
    obtain ⟨d, e, hde, _, hlt⟩ := (updateRoutingTable_flag_iff cur p.2
      nbNode.routingTable (adj p.1 p.2) hc b3).mp hbc
    have he1 : e.1 = Network.cost s p.2 d := by
      rw [network_cost_eq_node s p.2 nbNode h2 d]
      unfold Node.cost
      rw [hde]
      rfl
    have hcur : entryCost (lookupA cur.routingTable d)
        = Network.cost s p.1 d := by
      rw [network_cost_eq_node s p.1 cur h1 d]
      rfl
    rw [he1, hcur] at hlt
    by_cases hcm : Network.cost s p.2 d = ⊤
    · rw [hcm, add_top] at hlt
      exact not_top_lt hlt
    · have hsp : spDist adj p.2 d ≠ ⊤ :=
        fun h => hcm (top_le_iff.mp (h ▸ hv p.2 d))
      have hd_ids : d ∈ ids := by
        by_contra hdnot
        by_cases hdp2 : p.2 = d
        · exact hdnot (hdp2 ▸ hp2)
        · exact hsp (spDist_top_of_not_mem adj ids hend p.2 d hdnot hdp2)
      have hle : Network.cost s p.1 d ≤ adj p.1 p.2 + Network.cost s p.2 d := by
        rw [hopt p.1 d hp1 hd_ids]
        exact le_trans (spDist_triangle adj p.1 p.2 d)
          (add_le_add_left (hv p.2 d) _)
      exact absurd hlt (not_lt.mpr hle)

/-- Claim C4 amended: for every connected topology of N greater or equal 2
nodes with non-negative finite link costs and no failures injected, built by
addNode and connectNodes, the call of simulateIteration in round N-1 returns
false (so a round returning false is reached within N-1 rounds), and in the
converged state — both after N-2 rounds and after the N-1 rounds of the run —
every routing-table cost between nodes equals the true shortest-path
distance (⊤ standing for a missing entry). -/
theorem bellman_convergence (ids : List NodeId) (links : List Link)
    (hnd : ids.Nodup) (hN : 2 ≤ ids.length)
    (hlinks : ∀ l ∈ links, l.1 ∈ ids ∧ l.2.1 ∈ ids ∧ l.1 ≠ l.2.1)
    (_hconn : ∀ a ∈ ids, ∀ b ∈ ids, spDist (adjOf links) a b ≠ ⊤) :
    ((iterNet (ids.length - 2) (buildNet ids links)).simulateIteration).2
      = false ∧
    (∀ a ∈ ids, ∀ b ∈ ids,
      Network.cost (iterNet (ids.length - 2) (buildNet ids links)) a b
        = spDist (adjOf links) a b) ∧
    (∀ a ∈ ids, ∀ b ∈ ids,
      Network.cost (iterNet (ids.length - 1) (buildNet ids links)) a b
        = spDist (adjOf links) a b) := by
  have hend := adjOf_endpoints ids links hlinks
  have hB := built_buildNet ids links hnd hlinks
  have hwf : ∀ k, WfNet (adjOf links) ids (iterNet k (buildNet ids links)) := by
    intro k
    induction k with
    | zero => exact built_wfNet _ _ _ hB
    | succ k ih =>
      rw [iterNet_succ]
      exact wfNet_round _ _ _ ih
  have hvalid : ∀ k, ValidNet (adjOf links) (iterNet k (buildNet ids links)) := by
    intro k
    induction k with
    | zero =>
      show ValidNet (adjOf links) (buildNet ids links)
      intro a d
      by_cases ha : a ∈ ids
      · rw [built_cost (adjOf links) ids (buildNet ids links) hB a ha d]
        by_cases had : a = d
        · rw [if_pos had, had]
          exact spDist_self_le_zero (adjOf links) d
        · rw [if_neg had]
          exact spDist_le_adj (adjOf links) a d
      · have hnone : lookupA (buildNet ids links).nodes a = none := by
          rw [lookupA_eq_none_iff, hB.keys]
          exact ha
        unfold Network.cost
        rw [hnone]
        exact le_top
    | succ k ih =>
      rw [iterNet_succ]
      exact valid_round (adjOf links) ids _ (hwf k) ih
  have hub : ∀ k a d, a ∈ ids →
      Network.cost (iterNet k (buildNet ids links)) a d
        ≤ bell (adjOf links) ids k a d := by
    intro k
    induction k with
    | zero =>
      intro a d ha
      exact le_of_eq (built_cost (adjOf links) ids (buildNet ids links) hB a ha d)
    | succ k ih =>
      intro a d ha
      rw [iterNet_succ]
      show _ ≤ min (bell (adjOf links) ids k a d)
        (minList (ids.map fun m => adjOf links a m + bell (adjOf links) ids k m d))
      apply le_min
      · exact le_trans (simulateIteration_cost_le _ a d) (ih a d ha)
      · apply le_minList
        intro x hx
        obtain ⟨m, hm, rfl⟩ := List.mem_map.mp hx
        by_cases hadj : adjOf links a m = ⊤
        · rw [hadj, top_add]
          exact le_top
        · by_cases had : d = a
          · rw [had, wfNet_self_cost (adjOf links) ids _
              (wfNet_round _ _ _ (hwf k)) a ha]
            exact zero_le _
          · exact le_trans
              (round_cost_le_via (adjOf links) ids _ (hwf k) a m d ha hm hadj had)
              (add_le_add_left (ih m d hm) _)
  have heq : ∀ a b, a ∈ ids → b ∈ ids →
      Network.cost (iterNet (ids.length - 2) (buildNet ids links)) a b
        = spDist (adjOf links) a b := by
    intro a b ha hb
    apply le_antisymm
    · rw [← bell_eq_spDist (adjOf links) ids hend hN a b]
      exact hub (ids.length - 2) a b ha
    · exact hvalid (ids.length - 2) a b
  have hflag : ((iterNet (ids.length - 2)
      (buildNet ids links)).simulateIteration).2 = false :=
    round_false_of_optimal (adjOf links) ids _ (hwf _) (hvalid _) hend heq
  refine ⟨hflag, fun a ha b hb => heq a b ha hb, ?_⟩
  have hsame : iterNet (ids.length - 1) (buildNet ids links)
      = iterNet (ids.length - 2) (buildNet ids links) := by
    have h21 : ids.length - 1 = (ids.length - 2) + 1 := by omega
    rw [h21, iterNet_succ, simulateIteration_false_state _ hflag]
  intro a ha b hb
  rw [hsame]
  exact heq a b ha hb

/-- Claim C4 counterexample: for the topology with a single node A (N = 1,
trivially connected, no links), no round among the first N - 1 = 0 rounds
can return false, so the claim as stated fails for N = 1; in fact the very
first call of simulateIteration already returns false. -/
theorem bellman_convergence_counterex :
    (¬ ∃ k, 1 ≤ k ∧ k ≤ (["A"] : List NodeId).length - 1 ∧
      ((iterNet (k - 1) (buildNet ["A"] ([] : List Link))).simulateIteration).2
        = false) ∧
    ((buildNet ["A"] ([] : List Link)).simulateIteration).2 = false := by
  constructor
  · rintro ⟨k, h1, h2, _⟩
    simp only [List.length_singleton] at h2
    omega
  · decide

/-- The driver's 3-node topology as a list of ids and links. -/
def triangleIds : List NodeId := ["A", "B", "C"]

/-- The driver's links A-B at 1, B-C at 1, A-C at 4. -/
def triangleLinks : List Link := [("A", "B", 1), ("B", "C", 1), ("A", "C", 4)]

/-- Claim C4 witness: on the driver's triangle (N = 3), round 2 returns
false and the costs A to C after rounds 1 and 2 equal the true distance. -/
theorem bellman_convergence_witness :
    ((iterNet 1 (buildNet triangleIds triangleLinks)).simulateIteration).2
      = false ∧
    Network.cost (iterNet 1 (buildNet triangleIds triangleLinks)) "A" "C"
      = spDist (adjOf triangleLinks) "A" "C" ∧
    Network.cost (iterNet 2 (buildNet triangleIds triangleLinks)) "A" "C"
      = spDist (adjOf triangleLinks) "A" "C" := by
  have hconn : ∀ a ∈ triangleIds, ∀ b ∈ triangleIds,
      spDist (adjOf triangleLinks) a b ≠ ⊤ := by
    intro a ha b hb
    rw [← bell_eq_spDist (adjOf triangleLinks) triangleIds
      (adjOf_endpoints triangleIds triangleLinks (by decide)) (by decide) a b]
    simp only [triangleIds, List.mem_cons, List.not_mem_nil, or_false] at ha hb
    rcases ha with rfl | rfl | rfl <;> rcases hb with rfl | rfl | rfl <;> decide
  have h := bellman_convergence triangleIds triangleLinks (by decide) (by decide)
    (by decide) hconn
  exact ⟨h.1, h.2.1 "A" (by decide) "C" (by decide),
    h.2.2 "A" (by decide) "C" (by decide)⟩

/-- Claim C2 counterexample: a state reachable by addNode A then
connectNodes A A 5 has A's self entry equal to (5, A), not (0, A). -/
theorem selfRoute_invariant_counterex :
    ((Network.empty.addNode "A").connectNodes "A" "A" 5).entry "A" "A"
        = some ((5 : Cost), some "A") ∧
    ((Network.empty.addNode "A").connectNodes "A" "A" 5).entry "A" "A"
        ≠ some ((0 : Cost), some "A") := by
  exact ⟨by decide, by decide⟩

end RipSim
